import Mathlib

/-
Verification development for a separate-chaining hash map (`HashMap.hpp`)
and its string dictionary subclass (`Dictionary.hpp`).

The C++ class `HashMap<KeyT, ValueT>` is embedded shallowly:

* the bucket array `vector<pair<KeyT,ValueT>> *_map` of length `_capacity`
  becomes a `List (List (K × V))`;
* the `int` fields `_size` and `_capacity` become `Nat` (they are
  non-negative in every reachable state; the one subtraction `_size--` in
  `erase` happens only after an element was found, where `_size ≥ 1` holds
  in every well-formed state);
* `std::hash<KeyT>` becomes an arbitrary function `hash_func : K → Nat`;
* functions that throw (`at`, `bucket_size`, `bucket_index`,
  `Dictionary::erase`, the two-vector constructor) return `Except Err _`.

Each definition carries a comment naming the C++ member it translates.
-/

/-- The three error kinds of the library: `runtime_error("Key not found")`
thrown by `at`/`bucket_size`/`bucket_index`, the `InvalidKey` exception of
`Dictionary::erase`, and the `runtime_error` thrown by the two-vector
constructor on length mismatch. -/
inductive Err where
  | KeyNotFound
  | InvalidKey
  | LengthMismatch
deriving DecidableEq, Repr

deriving instance DecidableEq for Except

/-- The state of a `HashMap<KeyT, ValueT>` object: the bucket array `_map`
(an array of `_capacity` vectors of key/value pairs), the element count
`_size`, and the bucket count `_capacity`. -/
structure HashMap (K V : Type) where
  _map : List (List (K × V))
  _size : Nat
  _capacity : Nat
deriving DecidableEq, Repr

namespace HashMap

variable {K V : Type} (hash_func : K → Nat)

/-- `HashMap::get_hash_index`: `(int) (hash_func (key) & (_capacity - 1))`.
The capacity is passed explicitly because during `move_elements_from` the
method reads the already-updated `_capacity`. -/
def get_hash_index (capacity : Nat) (key : K) : Nat :=
  hash_func key &&& (capacity - 1)

/-- All live entries, in bucket order: the concatenation of the buckets. -/
def entries (s : HashMap K V) : List (K × V) :=
  s._map.flatten

/-- `HashMap::get_load_factor`: `(double) _size / _capacity`.  Modelled in
`ℚ`; for the reachable states (where `_capacity` is a power of two and
`_size < 2^53`) the C++ `double` quotient is exact, so the `ℚ` value and
every comparison against the exact constants `0.75` and `0.25` agree with
the C++ computation.  (For `_capacity = 0`, unreachable, `ℚ` division
yields `0`.) -/
def get_load_factor (s : HashMap K V) : ℚ :=
  (s._size : ℚ) / (s._capacity : ℚ)

/-- The inner statement of `HashMap::move_elements_from`:
`_map[get_hash_index (element.first)].push_back (element)` against the new
capacity. -/
def push_elem (capacity : Nat) (m : List (List (K × V))) (e : K × V) :
    List (List (K × V)) :=
  m.set (get_hash_index hash_func capacity e.1)
    ((m.getD (get_hash_index hash_func capacity e.1) []) ++ [e])

/-- `HashMap::move_elements_from`: the double loop
`for i in [0, old_size) : for element in old_map[i] : push`, filling a
freshly allocated array of `capacity` empty buckets (the allocation is done
by `resize_map` in the source; `old_size` is the length of `old_map`). -/
def move_elements_from (capacity : Nat) (old_map : List (List (K × V))) :
    List (List (K × V)) :=
  old_map.foldl (fun m b => b.foldl (push_elem hash_func capacity) m)
    (List.replicate capacity [])

/-- One resize step: `HashMap::handle_resize` updates `_capacity` to
`newCapacity` and then `HashMap::resize_map` allocates a fresh bucket array
and moves every element across; `_size` is unchanged. -/
def resize_map (newCapacity : Nat) (s : HashMap K V) : HashMap K V :=
  { _map := move_elements_from hash_func newCapacity s._map
    _size := s._size
    _capacity := newCapacity }

/-- `get_load_factor s > 0.75` spelled out on the integer fields. -/
lemma load_factor_gt_iff (s : HashMap K V) :
    get_load_factor s > 3/4 ↔ 0 < s._capacity ∧ 3 * s._capacity < 4 * s._size := by
  unfold get_load_factor
  rcases Nat.eq_zero_or_pos s._capacity with hc | hc
  · simp [hc]
    norm_num
  · have hc' : (0 : ℚ) < (s._capacity : ℚ) := by exact_mod_cast hc
    rw [gt_iff_lt, lt_div_iff₀ hc']
    constructor
    · intro h
      refine ⟨hc, ?_⟩
      have h4 : (3 : ℚ) * s._capacity < 4 * s._size := by nlinarith
      exact_mod_cast h4
    · rintro ⟨-, h⟩
      have h4 : (3 : ℚ) * s._capacity < 4 * s._size := by exact_mod_cast h
      nlinarith

/-- `get_load_factor s < 0.25` spelled out on the integer fields. -/
lemma load_factor_lt_iff (s : HashMap K V) (hc : 0 < s._capacity) :
    get_load_factor s < 1/4 ↔ 4 * s._size < s._capacity := by
  unfold get_load_factor
  have hc' : (0 : ℚ) < (s._capacity : ℚ) := by exact_mod_cast hc
  rw [div_lt_iff₀ hc']
  constructor
  · intro h
    have h4 : (4 : ℚ) * s._size < s._capacity := by nlinarith
    exact_mod_cast h4
  · intro h
    have h4 : (4 : ℚ) * s._size < s._capacity := by exact_mod_cast h
    nlinarith

/-- The first `while` loop of `HashMap::handle_resize` (run when
`increase` is true): while the load factor exceeds `UPPER_LOAD_FACTOR`
(0.75), double `_capacity` and rehash. -/
def handle_resize_up (s : HashMap K V) : HashMap K V :=
  if get_load_factor s > 3/4 then
    handle_resize_up (resize_map hash_func (2 * s._capacity) s)
  else s
termination_by 4 * s._size - 3 * s._capacity
decreasing_by
  rename_i h
  rw [load_factor_gt_iff] at h
  simp only [resize_map]
  omega

/-- The second `while` loop of `HashMap::handle_resize` (run when
`increase` is false): while the load factor is below `LOWER_LOAD_FACTOR`
(0.25) and `_capacity` exceeds `MIN_CAPACITY` (1), halve `_capacity` and
rehash. -/
def handle_resize_down (s : HashMap K V) : HashMap K V :=
  if get_load_factor s < 1/4 ∧ 1 < s._capacity then
    handle_resize_down (resize_map hash_func (s._capacity / 2) s)
  else s
termination_by s._capacity
decreasing_by
  rename_i h
  simp only [resize_map]
  omega

/-- `HashMap::handle_resize (increase)`: the source has both `while` loops
in sequence, each with `increase` (resp. `!increase`) conjoined to its
guard, so exactly one loop can run. -/
def handle_resize (increase : Bool) (s : HashMap K V) : HashMap K V :=
  if increase then handle_resize_up hash_func s else handle_resize_down hash_func s

/-- `HashMap::HashMap ()`: `_size = INITIAL_SIZE` (0),
`_capacity = INITIAL_CAPACITY` (16), all buckets empty. -/
def empty : HashMap K V :=
  { _map := List.replicate 16 [], _size := 0, _capacity := 16 }

/-- `HashMap::clear`: delete the bucket array and reallocate `_capacity`
empty buckets; `_size = 0`, `_capacity` unchanged. -/
def clear (s : HashMap K V) : HashMap K V :=
  { _map := List.replicate s._capacity [], _size := 0, _capacity := s._capacity }

/-- The loop of `HashMap::get_next_index_with_elements` viewed from loop
variable `i`: return the first `i' ≥ i` with `i' < _capacity` and
`!_map[i'].empty ()`, or `_capacity` when there is none. -/
def next_from (s : HashMap K V) (i : Nat) : Nat :=
  if i < s._capacity then
    (if (s._map.getD i []).isEmpty then next_from s (i + 1) else i)
  else s._capacity
termination_by s._capacity - i

/-- `HashMap::get_next_index_with_elements (curr_index)`: the `for` loop
starts at `curr_index + 1`. -/
def get_next_index_with_elements (s : HashMap K V) (curr : Nat) : Nat :=
  next_from s (curr + 1)

lemma next_from_ge (s : HashMap K V) (i : Nat) (hi : i ≤ s._capacity) :
    i ≤ next_from s i := by
  induction i using next_from.induct s with
  | case1 i h hempty ih =>
      rw [next_from, if_pos h, if_pos hempty]
      have := ih (by omega)
      omega
  | case2 i h hempty =>
      rw [next_from, if_pos h, if_neg hempty]
  | case3 i h =>
      rw [next_from, if_neg h]
      omega

/-- The elements produced by driving a `ConstIterator` whose cursor is
`(map_index = i, element_index = 0)` forward until it equals `cend ()`
(cursor `(_capacity, 0)`): `operator*` / `operator++` walk the current
bucket front to back, then jump to
`get_next_index_with_elements (map_index)`. -/
def traverse_from (s : HashMap K V) (i : Nat) : List (K × V) :=
  if i < s._capacity then
    s._map.getD i [] ++ traverse_from s (get_next_index_with_elements s i)
  else []
termination_by s._capacity - i
decreasing_by
  rename_i h
  have := next_from_ge s (i + 1) (by omega)
  simp only [get_next_index_with_elements]
  omega

/-- A full forward traversal, `cbegin ()` to `cend ()`: `cbegin ()` places
the cursor at `(get_next_index_with_elements (0), 0)`. -/
def visited (s : HashMap K V) : List (K × V) :=
  traverse_from s (get_next_index_with_elements s 0)

/-- Every entry sits in the bucket its key hashes to (with the current
capacity). -/
def coherent (s : HashMap K V) : Prop :=
  ∀ i, (hi : i < s._map.length) →
    ∀ e ∈ s._map[i], get_hash_index hash_func s._capacity e.1 = i

/-- Well-formedness of a table state: the bucket array has `_capacity`
buckets, `_capacity` is positive, every entry is in the right bucket, keys
are globally distinct, and `_size` counts the entries. -/
def WF (s : HashMap K V) : Prop :=
  s._map.length = s._capacity ∧
  0 < s._capacity ∧
  coherent hash_func s ∧
  ((entries s).map Prod.fst).Nodup ∧
  s._size = (entries s).length

variable [DecidableEq K] [DecidableEq V]

/-- The scan loop shared by `insert` / `contains_key` / `at`: walk a bucket
front to back and return the value of the first entry whose key compares
equal (`key == element.first`). -/
def findVal (key : K) : List (K × V) → Option V
  | [] => none
  | e :: es => if e.1 = key then some e.2 else findVal key es

/-- The scan-and-erase loop of `HashMap::erase` (and `Dictionary::erase`):
find the first entry whose key compares equal and remove it
(`_map[index].erase (_map[index].begin () + j)`); `none` when no entry
matches. -/
def removeFirst (key : K) : List (K × V) → Option (List (K × V))
  | [] => none
  | e :: es => if e.1 = key then some es else (removeFirst key es).map (e :: ·)

/-- The scan that `insert` / `contains_key` / `at` all begin with: run
`findVal` on the bucket `_map[get_hash_index (key)]`. -/
def lookup_val (s : HashMap K V) (key : K) : Option V :=
  findVal key (s._map.getD (get_hash_index hash_func s._capacity key) [])

/-- The state of `insert` right after
`_map[index].push_back (element_to_insert); _size++;`, before
`handle_resize (true)` runs. -/
def insert_push (s : HashMap K V) (key : K) (value : V) : HashMap K V :=
  { _map := s._map.set (get_hash_index hash_func s._capacity key)
      ((s._map.getD (get_hash_index hash_func s._capacity key) []) ++ [(key, value)])
    _size := s._size + 1
    _capacity := s._capacity }

/-- `HashMap::insert`: compute the bucket index, scan the bucket for the
key (return `false` and leave the table unchanged if found), otherwise
`push_back` the pair, increment `_size`, and run `handle_resize (true)`. -/
def insert (s : HashMap K V) (key : K) (value : V) : Bool × HashMap K V :=
  match lookup_val hash_func s key with
  | some _ => (false, s)
  | none => (true, handle_resize hash_func true (insert_push hash_func s key value))

/-- `HashMap::contains_key`: scan the key's bucket. -/
def contains_key (s : HashMap K V) (key : K) : Bool :=
  (findVal key (s._map.getD (get_hash_index hash_func s._capacity key) [])).isSome

/-- `HashMap::at`: scan the key's bucket, return the value of the matching
entry, or throw `runtime_error ("Key not found")`. -/
def at_key (s : HashMap K V) (key : K) : Except Err V :=
  match findVal key (s._map.getD (get_hash_index hash_func s._capacity key) []) with
  | some v => .ok v
  | none => .error .KeyNotFound

/-- The state of `erase` right after
`_map[index].erase (...); _size--;`, before `handle_resize (false)` runs;
`b` is the key's bucket with the found entry removed. -/
def erase_pop (s : HashMap K V) (key : K) (b : List (K × V)) : HashMap K V :=
  { _map := s._map.set (get_hash_index hash_func s._capacity key) b
    _size := s._size - 1
    _capacity := s._capacity }

/-- `HashMap::erase`: compute the bucket index, erase the first matching
entry if any (then decrement `_size`, run `handle_resize (false)`, return
`true`), otherwise return `false` with the table unchanged. -/
def erase (s : HashMap K V) (key : K) : Bool × HashMap K V :=
  match removeFirst key
      (s._map.getD (get_hash_index hash_func s._capacity key) []) with
  | some b => (true, handle_resize hash_func false (erase_pop hash_func s key b))
  | none => (false, s)

/-- `HashMap::bucket_size`: `at (key)` first (propagating its
`KeyNotFound` failure), then the length of the key's bucket. -/
def bucket_size (s : HashMap K V) (key : K) : Except Err Nat :=
  match at_key hash_func s key with
  | .error e => .error e
  | .ok _ => .ok (s._map.getD (get_hash_index hash_func s._capacity key) []).length

/-- `HashMap::bucket_index`: `at (key)` first (propagating its
`KeyNotFound` failure), then `get_hash_index (key)`. -/
def bucket_index (s : HashMap K V) (key : K) : Except Err Nat :=
  match at_key hash_func s key with
  | .error e => .error e
  | .ok _ => .ok (get_hash_index hash_func s._capacity key)

/-- Folding `insert` over a list of pairs (used by the copy constructor,
`operator=`, and several claims). -/
def insert_all (s : HashMap K V) (ps : List (K × V)) : HashMap K V :=
  ps.foldl (fun t p => (insert hash_func t p.1 p.2).2) s

/-- `HashMap::HashMap (const HashMap &hm)`: `_size = 0`,
`_capacity = hm._capacity`, fresh empty buckets, then
`for (element : hm) insert (element.first, element.second)` — the
range-`for` uses `begin ()` / `end ()`, i.e. the `visited` traversal. -/
def copy_construct (src : HashMap K V) : HashMap K V :=
  insert_all hash_func
    { _map := List.replicate src._capacity [], _size := 0, _capacity := src._capacity }
    (visited src)

/-- `HashMap::operator=` (for `target ≠ source`): `clear ()` then insert
every element of the range-`for` over `hm`.  (On self-assignment the
source returns the map unchanged.) -/
def assign (target src : HashMap K V) : HashMap K V :=
  insert_all hash_func (clear target) (visited src)

/-- `HashMap::operator[]` (non-const): `at (key)` inside a `try`; on
`KeyNotFound` insert `(key, ValueT ())` — `d` models the
default-constructed value — and return `at (key)` of the new state. -/
def index_access (d : V) (s : HashMap K V) (key : K) : V × HashMap K V :=
  match at_key hash_func s key with
  | .ok v => (v, s)
  | .error _ =>
      let s2 := (insert hash_func s key d).2
      ((at_key hash_func s2 key).toOption.getD d, s2)

/-- `HashMap::operator==`: inside a `try`, compare `_size`, then for every
element of the range-`for` over `*this` check
`rhs.at (elem.first) != elem.second`; the `catch` turns the `KeyNotFound`
thrown by `rhs.at` into `false`. -/
def hm_beq (a b : HashMap K V) : Bool :=
  decide (a._size = b._size) &&
    (visited a).all (fun e =>
      match at_key hash_func b e.1 with
      | .ok v => decide (v = e.2)
      | .error _ => false)

/-- `HashMap::operator!=`: `!(operator== (rhs))`. -/
def hm_bne (a b : HashMap K V) : Bool :=
  !(hm_beq hash_func a b)

/-- `Dictionary::erase`: textually the same scan-and-erase loop as
`HashMap::erase`, but `throw InvalidKey (INVALID_KEY)` replaces the final
`return false`. -/
def dict_erase (s : HashMap K V) (key : K) : Except Err (Bool × HashMap K V) :=
  match removeFirst key
      (s._map.getD (get_hash_index hash_func s._capacity key) []) with
  | some b => .ok (true, handle_resize hash_func false (erase_pop hash_func s key b))
  | none => .error .InvalidKey

/-- The overwrite loop shared by `Dictionary::update` and the two-vector
constructor: for every entry of the key's bucket whose key compares equal,
assign `element.second = value` when the values differ (the `continue`
after it has no effect). -/
def overwrite_in_bucket (key : K) (value : V) (b : List (K × V)) : List (K × V) :=
  b.map (fun e => if e.1 = key then (if e.2 ≠ value then (e.1, value) else e) else e)

/-- The table state after the in-place overwrite loop of
`Dictionary::update` (and of the two-vector constructor): the key's bucket
is rewritten by `overwrite_in_bucket`; `_size` and `_capacity` are
untouched. -/
def overwrite_bucket_state (s : HashMap K V) (key : K) (value : V) : HashMap K V :=
  { s with
      _map := s._map.set (get_hash_index hash_func s._capacity key)
        (overwrite_in_bucket key value
          (s._map.getD (get_hash_index hash_func s._capacity key) [])) }

/-- One iteration of the `Dictionary::update` loop (and one iteration of
the two-vector constructor loop, which has the same body): overwrite the
value in place when the key is already present, then call
`insert (key, value)` (a no-op returning `false` when the key was
present). -/
def update_step (s : HashMap K V) (key : K) (value : V) : HashMap K V :=
  (insert hash_func (overwrite_bucket_state hash_func s key value) key value).2

/-- `Dictionary::update (it, it_end)`: run `update_step` once per pair of
the external sequence, in order. -/
def update (s : HashMap K V) (ps : List (K × V)) : HashMap K V :=
  ps.foldl (fun t p => update_step hash_func t p.1 p.2) s

/-- `HashMap::HashMap (vector<KeyT> keys, vector<ValueT> values)`: throw on
length mismatch, otherwise start from the default-constructed state and run
the `update_step` body once per index `i` on `(keys[i], values[i])`. -/
def from_vectors (keys : List K) (values : List V) : Except Err (HashMap K V) :=
  if keys.length ≠ values.length then .error .LengthMismatch
  else .ok (update hash_func empty (keys.zip values))

instance (s : HashMap K V) : Decidable (coherent hash_func s) := by
  unfold coherent; infer_instance

instance (s : HashMap K V) : Decidable (WF hash_func s) := by
  unfold WF; infer_instance

/-- The state invariant maintained by every public operation:
well-formedness, power-of-two capacity, and load factor at most 0.75
(spelled `4 * _size ≤ 3 * _capacity`). -/
def Inv (s : HashMap K V) : Prop :=
  WF hash_func s ∧ (∃ m, s._capacity = 2 ^ m) ∧ 4 * s._size ≤ 3 * s._capacity

/-- The states reachable from a freshly constructed table by the public
operations of `HashMap` and `Dictionary`. -/
inductive Reachable : HashMap K V → Prop where
  | default_ctor : Reachable empty
  | vector_ctor (keys : List K) (values : List V) (s : HashMap K V) :
      from_vectors hash_func keys values = .ok s → Reachable s
  | copy_ctor (s : HashMap K V) : Reachable s → Reachable (copy_construct hash_func s)
  | insert_op (s : HashMap K V) (k : K) (v : V) :
      Reachable s → Reachable (insert hash_func s k v).2
  | erase_op (s : HashMap K V) (k : K) :
      Reachable s → Reachable (erase hash_func s k).2
  | clear_op (s : HashMap K V) : Reachable s → Reachable (clear s)
  | assign_op (t s : HashMap K V) :
      Reachable t → Reachable s → Reachable (assign hash_func t s)
  | index_op (s : HashMap K V) (k : K) (d : V) :
      Reachable s → Reachable (index_access hash_func d s k).2
  | dict_erase_op (s : HashMap K V) (k : K) (b : Bool) (t : HashMap K V) :
      Reachable s → dict_erase hash_func s k = .ok (b, t) → Reachable t
  | update_op (s : HashMap K V) (ps : List (K × V)) :
      Reachable s → Reachable (update hash_func s ps)

/-- The value paired with the last occurrence of `key` in an external
sequence of pairs (used to state what the duplicate-tolerant constructor
and `Dictionary::update` leave in the table). -/
def last_occurrence_value (key : K) (ps : List (K × V)) : Option V :=
  findVal key ps.reverse

end HashMap

/-- A concrete hash function for the `KeyT = int` instantiation:
`std::hash<int>` in libstdc++ (and libc++) is the identity on non-negative
values. -/
def natHash : Nat → Nat := fun n => n

/-- The table obtained by default-constructing `HashMap<int, int>` and
inserting `(0, 1)`; key 0 hashes to bucket 0. -/
def sample_one : HashMap Nat Nat := (HashMap.insert natHash HashMap.empty 0 1).2

/-- The table obtained by default-constructing `HashMap<int, int>` and
inserting `(16, 2)`; key 16 also hashes to bucket 0 (16 & 15 = 0). -/
def sample_two : HashMap Nat Nat := (HashMap.insert natHash HashMap.empty 16 2).2

/-- A small literal well-formed table (key 5 in bucket 5) used to
instantiate theorems with hypotheses. -/
def sample_wf : HashMap Nat Nat :=
  ⟨(List.replicate 16 ([] : List (Nat × Nat))).set 5 [(5, 50)], 1, 16⟩

namespace HashMap

variable {K V : Type} (hash_func : K → Nat) [DecidableEq K] [DecidableEq V]

/-! ### Lemmas about the bucket-level primitives -/

lemma get_hash_index_lt (capacity : Nat) (hc : 0 < capacity) (k : K) :
    get_hash_index hash_func capacity k < capacity := by
  have h : get_hash_index hash_func capacity k ≤ capacity - 1 := Nat.and_le_right
  omega

lemma findVal_append (key : K) (l₁ l₂ : List (K × V)) :
    findVal key (l₁ ++ l₂) = (findVal key l₁).or (findVal key l₂) := by
  induction l₁ with
  | nil => simp [findVal]
  | cons e es ih => by_cases h : e.1 = key <;> simp [findVal, h, ih]

lemma findVal_eq_none (key : K) (l : List (K × V)) :
    findVal key l = none ↔ ∀ e ∈ l, e.1 ≠ key := by
  induction l with
  | nil => simp [findVal]
  | cons e es ih => by_cases h : e.1 = key <;> simp [findVal, h, ih]

lemma findVal_isSome (key : K) (l : List (K × V)) :
    (findVal key l).isSome = true ↔ ∃ e ∈ l, e.1 = key := by
  induction l with
  | nil => simp [findVal]
  | cons e es ih => by_cases h : e.1 = key <;> simp [findVal, h, ih]

lemma findVal_mem (key : K) (l : List (K × V)) (v : V) (h : findVal key l = some v) :
    (key, v) ∈ l := by
  induction l with
  | nil => simp [findVal] at h
  | cons e es ih =>
      by_cases he : e.1 = key
      · simp [findVal, he] at h
        have he2 : (key, v) = e := Prod.ext_iff.mpr ⟨he.symm, h.symm⟩
        rw [he2]
        exact List.mem_cons_self e es
      · simp [findVal, he] at h
        exact List.mem_cons_of_mem e (ih h)

lemma findVal_filter (key : K) (l : List (K × V)) (p : K × V → Bool)
    (hp : ∀ e ∈ l, e.1 = key → p e = true) :
    findVal key (l.filter p) = findVal key l := by
  induction l with
  | nil => simp
  | cons e es ih =>
      have ih' := ih (fun e he => hp e (by simp [he]))
      by_cases hk : e.1 = key
      · rw [List.filter_cons, if_pos (hp e (by simp) hk)]
        simp [findVal, hk]
      · rw [List.filter_cons]
        split
        · simp [findVal, hk, ih']
        · simp [findVal, hk, ih']

lemma removeFirst_eq_none (key : K) (l : List (K × V)) :
    removeFirst key l = none ↔ findVal key l = none := by
  induction l with
  | nil => simp [removeFirst, findVal]
  | cons e es ih => by_cases h : e.1 = key <;> simp [removeFirst, findVal, h, ih]

lemma removeFirst_spec (key : K) (l l' : List (K × V))
    (h : removeFirst key l = some l') :
    ∃ l₁ v l₂, l = l₁ ++ (key, v) :: l₂ ∧ (∀ e ∈ l₁, e.1 ≠ key) ∧ l' = l₁ ++ l₂ := by
  induction l generalizing l' with
  | nil => simp [removeFirst] at h
  | cons e es ih =>
      by_cases he : e.1 = key
      · simp [removeFirst, he] at h
        refine ⟨[], e.2, es, ?_, by simp, by simp [h]⟩
        simp
        exact (Prod.ext_iff.mpr ⟨he, rfl⟩ : e = (key, e.2))
      · simp [removeFirst, he] at h
        obtain ⟨es', hes', rfl⟩ := h
        obtain ⟨l₁, v, l₂, rfl, hl₁, rfl⟩ := ih es' hes'
        refine ⟨e :: l₁, v, l₂, rfl, ?_, rfl⟩
        intro x hx
        rcases List.mem_cons.mp hx with rfl | hx
        · exact he
        · exact hl₁ x hx

/-! ### Lemmas about `getD`, `set` and `flatten` -/

lemma getD_set_self {α : Type _} (m : List α) (i : Nat) (a d : α) (hi : i < m.length) :
    (m.set i a).getD i d = a := by
  simp [List.getD_eq_getElem?_getD, List.getElem?_set, hi]

lemma getD_set_ne {α : Type _} (m : List α) (i j : Nat) (a d : α) (h : i ≠ j) :
    (m.set i a).getD j d = m.getD j d := by
  simp [List.getD_eq_getElem?_getD, List.getElem?_set, h]

lemma set_getD_self {α : Type _} (m : List α) (i : Nat) (d : α) (hi : i < m.length) :
    m.set i (m.getD i d) = m := by
  apply List.ext_getElem?
  intro n
  rw [List.getElem?_set]
  by_cases hin : i = n
  · subst hin
    rw [if_pos rfl, if_pos hi, List.getD_eq_getElem m d hi, List.getElem?_eq_getElem hi]
  · rw [if_neg hin]

lemma getD_replicate_nil {α : Type _} (n i : Nat) :
    (List.replicate n ([] : List α)).getD i [] = [] := by
  rcases Nat.lt_or_ge i n with h | h
  · rw [List.getD_eq_getElem _ _ (by simpa using h)]
    simp
  · rw [List.getD_eq_default]
    simpa using h

lemma flatten_replicate_nil {α : Type _} (n : Nat) :
    (List.replicate n ([] : List α)).flatten = [] := by
  induction n with
  | zero => rfl
  | succ n ih => simp [List.replicate_succ, ih]

lemma flatten_set {α : Type _} (m : List (List α)) (i : Nat) (hi : i < m.length)
    (b : List α) :
    (m.set i b).flatten = (m.take i).flatten ++ b ++ (m.drop (i + 1)).flatten := by
  rw [List.set_eq_take_append_cons_drop, if_pos hi]
  simp

lemma flatten_decomp {α : Type _} (m : List (List α)) (i : Nat) (hi : i < m.length) :
    m.flatten = (m.take i).flatten ++ m[i] ++ (m.drop (i + 1)).flatten := by
  conv_lhs => rw [← List.take_append_drop i m, ← List.getElem_cons_drop m i hi]
  rw [List.flatten_append, List.flatten_cons, ← List.append_assoc]

lemma flatten_set_concat_perm {α : Type _} (m : List (List α)) (i : Nat)
    (hi : i < m.length) (e : α) :
    (m.set i (m.getD i [] ++ [e])).flatten.Perm (m.flatten ++ [e]) := by
  rw [flatten_set m i hi, List.getD_eq_getElem m [] hi]
  conv_rhs => rw [flatten_decomp m i hi]
  have hperm : (((m.take i).flatten ++ m[i]) ++ ([e] ++ (m.drop (i + 1)).flatten)).Perm
      (((m.take i).flatten ++ m[i]) ++ ((m.drop (i + 1)).flatten ++ [e])) :=
    List.Perm.append_left _ List.perm_append_comm
  have e1 : (m.take i).flatten ++ (m[i] ++ [e]) ++ (m.drop (i + 1)).flatten
      = ((m.take i).flatten ++ m[i]) ++ ([e] ++ (m.drop (i + 1)).flatten) := by simp
  have e2 : ((m.take i).flatten ++ m[i]) ++ ((m.drop (i + 1)).flatten ++ [e])
      = ((m.take i).flatten ++ m[i] ++ (m.drop (i + 1)).flatten) ++ [e] := by simp
  rw [e1, ← e2]
  exact hperm

/-! ### The bucket-array produced by `move_elements_from` -/

lemma foldl_push_length (capacity : Nat) (es : List (K × V))
    (m : List (List (K × V))) :
    (es.foldl (push_elem hash_func capacity) m).length = m.length := by
  induction es generalizing m with
  | nil => rfl
  | cons e es ih =>
      rw [List.foldl_cons, ih]
      simp [push_elem]

lemma foldl_push_getD (capacity : Nat) (hc : 0 < capacity) (es : List (K × V))
    (i : Nat) (hi : i < capacity) :
    (es.foldl (push_elem hash_func capacity) (List.replicate capacity [])).getD i [] =
      es.filter (fun e => decide (get_hash_index hash_func capacity e.1 = i)) := by
  induction es using List.reverseRecOn with
  | nil => simp [getD_replicate_nil]
  | append_singleton es e ih =>
      rw [List.foldl_append, List.foldl_cons, List.foldl_nil, List.filter_append]
      have hlen : (es.foldl (push_elem hash_func capacity)
          (List.replicate capacity [])).length = capacity := by
        rw [foldl_push_length]
        simp
      by_cases hie : get_hash_index hash_func capacity e.1 = i
      · rw [push_elem, hie, getD_set_self _ _ _ _ (by omega), ih]
        simp [hie]
      · rw [push_elem, getD_set_ne _ _ _ _ _ hie, ih]
        simp [hie]

lemma foldl_push_flatten_perm (capacity : Nat) (hc : 0 < capacity)
    (es : List (K × V)) :
    (es.foldl (push_elem hash_func capacity) (List.replicate capacity [])).flatten.Perm
      es := by
  induction es using List.reverseRecOn with
  | nil =>
      simp only [List.foldl_nil]
      rw [flatten_replicate_nil]
  | append_singleton es e ih =>
      rw [List.foldl_append, List.foldl_cons, List.foldl_nil]
      have hlen : (es.foldl (push_elem hash_func capacity)
          (List.replicate capacity [])).length = capacity := by
        rw [foldl_push_length]
        simp
      have hidx : get_hash_index hash_func capacity e.1 <
          (es.foldl (push_elem hash_func capacity) (List.replicate capacity [])).length := by
        rw [hlen]
        exact get_hash_index_lt hash_func capacity hc e.1
      exact (flatten_set_concat_perm _ _ hidx e).trans (ih.append_right [e])

lemma move_elements_from_eq (capacity : Nat) (old_map : List (List (K × V))) :
    move_elements_from hash_func capacity old_map =
      old_map.flatten.foldl (push_elem hash_func capacity)
        (List.replicate capacity []) := by
  rw [List.foldl_flatten]
  rfl

/-! ### Lookup along the whole bucket array -/

lemma findVal_flatten_aux (capacity : Nat) (k : K) :
    ∀ (bs : List (List (K × V))) (off : Nat),
      (∀ j, (hj : j < bs.length) →
        ∀ e ∈ bs[j], get_hash_index hash_func capacity e.1 = off + j) →
      findVal k bs.flatten =
        if off ≤ get_hash_index hash_func capacity k ∧
            get_hash_index hash_func capacity k < off + bs.length
        then findVal k (bs.getD (get_hash_index hash_func capacity k - off) [])
        else none := by
  intro bs
  induction bs with
  | nil =>
      intro off hcoh
      rw [if_neg (by simp only [List.length_nil]; omega)]
      rfl
  | cons b bs ih =>
      intro off hcoh
      have hcoh0 : ∀ e ∈ b, get_hash_index hash_func capacity e.1 = off := by
        intro e he
        simpa using hcoh 0 (by simp) e (by simpa using he)
      have hcohtail : ∀ j, (hj : j < bs.length) →
          ∀ e ∈ bs[j], get_hash_index hash_func capacity e.1 = (off + 1) + j := by
        intro j hj e he
        have := hcoh (j + 1) (by simpa using hj) e (by simpa using he)
        omega
      rw [List.flatten_cons, findVal_append]
      by_cases hg : get_hash_index hash_func capacity k = off
      · cases hfb : findVal k b with
        | some v =>
            rw [if_pos (by simp; omega)]
            simp [hfb, hg]
        | none =>
            rw [ih (off + 1) hcohtail, if_neg (by omega), if_pos (by simp; omega)]
            simp [hfb, hg]
      · have hfb : findVal k b = none := by
          rw [findVal_eq_none]
          intro e he heq
          exact hg (heq ▸ hcoh0 e he)
        rw [hfb, ih (off + 1) hcohtail]
        by_cases hle : off + 1 ≤ get_hash_index hash_func capacity k ∧
            get_hash_index hash_func capacity k < off + 1 + bs.length
        · rw [if_pos hle, if_pos (by simp only [List.length_cons] at hle ⊢; omega)]
          have harith : get_hash_index hash_func capacity k - off =
              (get_hash_index hash_func capacity k - (off + 1)) + 1 := by omega
          rw [harith, List.getD_cons_succ]
          simp
        · rw [if_neg hle, if_neg (by simp only [List.length_cons] at hle ⊢; omega)]
          simp

lemma lookup_val_eq_entries (s : HashMap K V) (hlen : s._map.length = s._capacity)
    (hc : 0 < s._capacity) (hcoh : coherent hash_func s) (k : K) :
    findVal k (entries s) = lookup_val hash_func s k := by
  have hcoh0 : ∀ j, (hj : j < s._map.length) →
      ∀ e ∈ s._map[j], get_hash_index hash_func s._capacity e.1 = 0 + j := by
    intro j hj e he
    rw [Nat.zero_add]
    exact hcoh j hj e he
  have haux := findVal_flatten_aux hash_func s._capacity k s._map 0 hcoh0
  have hlt : get_hash_index hash_func s._capacity k < s._map.length := by
    rw [hlen]
    exact get_hash_index_lt hash_func s._capacity hc k
  rw [entries, haux, if_pos (by omega)]
  rfl

/-! ### The rehash step preserves well-formedness and all lookups -/

lemma resize_map_spec (s : HashMap K V) (hWF : WF hash_func s) (newCap : Nat)
    (hc : 0 < newCap) :
    WF hash_func (resize_map hash_func newCap s) ∧
    (resize_map hash_func newCap s)._size = s._size ∧
    (resize_map hash_func newCap s)._capacity = newCap ∧
    (entries (resize_map hash_func newCap s)).Perm (entries s) ∧
    ∀ k, lookup_val hash_func (resize_map hash_func newCap s) k =
      lookup_val hash_func s k := by
  obtain ⟨hlen, hcpos, hcoh, hnd, hsz⟩ := hWF
  have hmap : (resize_map hash_func newCap s)._map =
      (entries s).foldl (push_elem hash_func newCap) (List.replicate newCap []) := by
    simp [resize_map, move_elements_from_eq, entries]
  have htlen : (resize_map hash_func newCap s)._map.length = newCap := by
    rw [hmap, foldl_push_length]
    simp
  have hperm : (entries (resize_map hash_func newCap s)).Perm (entries s) := by
    rw [entries, hmap]
    exact foldl_push_flatten_perm hash_func newCap hc (entries s)
  have hbucket : ∀ i, i < newCap →
      (resize_map hash_func newCap s)._map.getD i [] =
        (entries s).filter (fun e => decide (get_hash_index hash_func newCap e.1 = i)) := by
    intro i hi
    rw [hmap]
    exact foldl_push_getD hash_func newCap hc (entries s) i hi
  have hcoh' : coherent hash_func (resize_map hash_func newCap s) := by
    intro i hi e he
    have hi' : i < newCap := htlen ▸ hi
    have : e ∈ (resize_map hash_func newCap s)._map.getD i [] := by
      rw [List.getD_eq_getElem _ _ hi]
      exact he
    rw [hbucket i hi'] at this
    have := (List.mem_filter.mp this).2
    simpa [resize_map] using of_decide_eq_true this
  have hlook : ∀ k, lookup_val hash_func (resize_map hash_func newCap s) k =
      lookup_val hash_func s k := by
    intro k
    have hg : get_hash_index hash_func newCap k < newCap :=
      get_hash_index_lt hash_func newCap hc k
    rw [lookup_val]
    simp only [resize_map] at hbucket ⊢
    rw [hbucket _ hg, findVal_filter]
    · rw [lookup_val_eq_entries hash_func s hlen hcpos hcoh k]
    · intro e he heq
      simp [heq]
  refine ⟨⟨htlen, hc, hcoh', ?_, ?_⟩, rfl, rfl, hperm, hlook⟩
  · exact (hperm.map Prod.fst).nodup_iff.mpr hnd
  · show (resize_map hash_func newCap s)._size =
      (entries (resize_map hash_func newCap s)).length
    rw [hperm.length_eq, ← hsz]
    rfl

/-! ### The resize loops preserve well-formedness and all lookups -/

lemma handle_resize_up_spec (s : HashMap K V) :
    WF hash_func s →
    WF hash_func (handle_resize_up hash_func s) ∧
    (handle_resize_up hash_func s)._size = s._size ∧
    (entries (handle_resize_up hash_func s)).Perm (entries s) ∧
    (∀ k, lookup_val hash_func (handle_resize_up hash_func s) k =
      lookup_val hash_func s k) ∧
    ((∃ m, s._capacity = 2 ^ m) →
      ∃ m, (handle_resize_up hash_func s)._capacity = 2 ^ m) := by
  induction s using handle_resize_up.induct hash_func with
  | case1 s hgt ih =>
      intro hWF
      have hc2 : 0 < 2 * s._capacity := by
        have := hWF.2.1
        omega
      obtain ⟨hWF', hsz', hcap', hperm', hlook'⟩ :=
        resize_map_spec hash_func s hWF (2 * s._capacity) hc2
      obtain ⟨ihWF, ihsz, ihperm, ihlook, ihpow⟩ := ih hWF'
      rw [handle_resize_up, if_pos hgt]
      refine ⟨ihWF, ?_, ihperm.trans hperm', ?_, ?_⟩
      · rw [ihsz, hsz']
      · intro k
        rw [ihlook k, hlook' k]
      · rintro ⟨m, hm⟩
        apply ihpow
        exact ⟨m + 1, by rw [hcap', hm, pow_succ, Nat.mul_comm]⟩
  | case2 s hgt =>
      intro hWF
      rw [handle_resize_up, if_neg hgt]
      exact ⟨hWF, rfl, .refl _, fun k => rfl, id⟩

/-- After the growth loop exits, the load factor is at most 0.75. -/
lemma handle_resize_up_load (s : HashMap K V) :
    ¬ get_load_factor (handle_resize_up hash_func s) > 3/4 := by
  induction s using handle_resize_up.induct hash_func with
  | case1 s hgt ih =>
      rw [handle_resize_up, if_pos hgt]
      exact ih
  | case2 s hgt =>
      rw [handle_resize_up, if_neg hgt]
      exact hgt

lemma handle_resize_up_eq_self (s : HashMap K V)
    (h : ¬ get_load_factor s > 3/4) :
    handle_resize_up hash_func s = s := by
  rw [handle_resize_up, if_neg h]

lemma handle_resize_up_once (s : HashMap K V)
    (h1 : get_load_factor s > 3/4)
    (h2 : ¬ get_load_factor (resize_map hash_func (2 * s._capacity) s) > 3/4) :
    handle_resize_up hash_func s = resize_map hash_func (2 * s._capacity) s := by
  rw [handle_resize_up, if_pos h1, handle_resize_up, if_neg h2]

lemma handle_resize_down_spec (s : HashMap K V) :
    WF hash_func s →
    WF hash_func (handle_resize_down hash_func s) ∧
    (handle_resize_down hash_func s)._size = s._size ∧
    (entries (handle_resize_down hash_func s)).Perm (entries s) ∧
    (∀ k, lookup_val hash_func (handle_resize_down hash_func s) k =
      lookup_val hash_func s k) ∧
    ((∃ m, s._capacity = 2 ^ m) →
      ∃ m, (handle_resize_down hash_func s)._capacity = 2 ^ m) ∧
    ((∃ m, s._capacity = 2 ^ m) → 4 * s._size ≤ 3 * s._capacity →
      4 * (handle_resize_down hash_func s)._size ≤
        3 * (handle_resize_down hash_func s)._capacity) := by
  induction s using handle_resize_down.induct hash_func with
  | case1 s hguard ih =>
      intro hWF
      obtain ⟨hlt, hgt1⟩ := hguard
      have hc2 : 0 < s._capacity / 2 := by omega
      obtain ⟨hWF', hsz', hcap', hperm', hlook'⟩ :=
        resize_map_spec hash_func s hWF (s._capacity / 2) hc2
      obtain ⟨ihWF, ihsz, ihperm, ihlook, ihpow, ihbound⟩ := ih hWF'
      rw [handle_resize_down, if_pos ⟨hlt, hgt1⟩]
      have hpow' : (∃ m, s._capacity = 2 ^ m) →
          ∃ m, (resize_map hash_func (s._capacity / 2) s)._capacity = 2 ^ m := by
        rintro ⟨m, hm⟩
        match m, hm with
        | 0, hm => omega
        | m + 1, hm =>
            refine ⟨m, ?_⟩
            rw [hcap', hm, pow_succ, Nat.mul_div_cancel (2 ^ m) (by omega)]
      refine ⟨ihWF, ?_, ihperm.trans hperm', ?_, ?_, ?_⟩
      · rw [ihsz, hsz']
      · intro k
        rw [ihlook k, hlook' k]
      · intro hpow
        exact ihpow (hpow' hpow)
      · intro hpow hbound
        apply ihbound (hpow' hpow)
        have h4lt : 4 * s._size < s._capacity :=
          (load_factor_lt_iff s (by omega)).mp hlt
        obtain ⟨m, hm⟩ := hpow
        match m, hm with
        | 0, hm => omega
        | m + 1, hm =>
            have hceven : s._capacity = 2 * (s._capacity / 2) := by
              rw [hm, pow_succ, Nat.mul_comm (2 ^ m) 2,
                Nat.mul_div_cancel_left (2 ^ m) (by omega)]
            rw [hsz', hcap']
            omega
  | case2 s hguard =>
      intro hWF
      rw [handle_resize_down, if_neg hguard]
      exact ⟨hWF, rfl, .refl _, fun k => rfl, id, fun _ h => h⟩

/-! ### Specification of `insert` -/

lemma not_key_of_lookup_none (s : HashMap K V) (hlen : s._map.length = s._capacity)
    (hc : 0 < s._capacity) (hcoh : coherent hash_func s) (k : K)
    (habs : lookup_val hash_func s k = none) :
    ∀ e ∈ entries s, e.1 ≠ k := by
  apply (findVal_eq_none k (entries s)).mp
  rw [lookup_val_eq_entries hash_func s hlen hc hcoh k]
  exact habs

lemma insert_of_found (s : HashMap K V) (k : K) (v w : V)
    (h : lookup_val hash_func s k = some w) :
    insert hash_func s k v = (false, s) := by
  rw [insert, h]

lemma insert_push_spec (s : HashMap K V) (k : K) (v : V)
    (hWF : WF hash_func s) (habs : lookup_val hash_func s k = none) :
    WF hash_func (insert_push hash_func s k v) ∧
    (insert_push hash_func s k v)._size = s._size + 1 ∧
    (insert_push hash_func s k v)._capacity = s._capacity ∧
    (entries (insert_push hash_func s k v)).Perm (entries s ++ [(k, v)]) ∧
    lookup_val hash_func (insert_push hash_func s k v) k = some v ∧
    (∀ k', k' ≠ k → lookup_val hash_func (insert_push hash_func s k v) k' =
      lookup_val hash_func s k') := by
  obtain ⟨hlen, hc, hcoh, hnd, hsz⟩ := hWF
  have hglt : get_hash_index hash_func s._capacity k < s._map.length := by
    rw [hlen]
    exact get_hash_index_lt hash_func s._capacity hc k
  have hfresh : ∀ e ∈ entries s, e.1 ≠ k :=
    not_key_of_lookup_none hash_func s hlen hc hcoh k habs
  have hperm : (entries (insert_push hash_func s k v)).Perm (entries s ++ [(k, v)]) :=
    flatten_set_concat_perm s._map _ hglt (k, v)
  have hknot : k ∉ (entries s).map Prod.fst := by
    intro hk
    obtain ⟨e, he, hek⟩ := List.mem_map.mp hk
    exact hfresh e he hek
  refine ⟨⟨?_, hc, ?_, ?_, ?_⟩, rfl, rfl, hperm, ?_, ?_⟩
  · simp [insert_push, hlen]
  · intro i hi e he
    simp only [insert_push, List.length_set] at hi
    by_cases hig : i = get_hash_index hash_func s._capacity k
    · subst hig
      simp only [insert_push] at he
      rw [List.getElem_set_self (by simpa using hi)] at he
      rcases List.mem_append.mp he with hb | hkv
      · rw [List.getD_eq_getElem s._map [] hglt] at hb
        exact hcoh _ hglt e hb
      · simp at hkv
        simp only [insert_push, hkv]
    · simp only [insert_push] at he ⊢
      rw [List.getElem_set_ne (fun h => hig h.symm) (by simpa using hi)] at he
      exact hcoh i (by simpa using hi) e he
  · apply (hperm.map Prod.fst).nodup_iff.mpr
    rw [List.map_append]
    rw [List.nodup_append]
    refine ⟨hnd, by simp, ?_⟩
    intro a ha hb
    simp at hb
    subst hb
    exact hknot ha
  · show (insert_push hash_func s k v)._size =
      (entries (insert_push hash_func s k v)).length
    rw [hperm.length_eq]
    simp [insert_push, hsz]
  · rw [lookup_val, insert_push]
    simp only
    rw [getD_set_self _ _ _ _ hglt, findVal_append, lookup_val] at *
    rw [habs]
    simp [findVal]
  · intro k' hk'
    rw [lookup_val, insert_push]
    simp only
    by_cases hgg : get_hash_index hash_func s._capacity k' =
        get_hash_index hash_func s._capacity k
    · rw [hgg, getD_set_self _ _ _ _ hglt, findVal_append]
      have : findVal k' [(k, v)] = none := by
        simp [findVal]
        intro h
        exact absurd h.symm hk'
      rw [this, Option.or_none, lookup_val, hgg]
    · rw [getD_set_ne _ _ _ _ _ (fun h => hgg h.symm)]
      rfl

lemma insert_absent_eq (s : HashMap K V) (k : K) (v : V)
    (habs : lookup_val hash_func s k = none) :
    insert hash_func s k v =
      (true, handle_resize_up hash_func (insert_push hash_func s k v)) := by
  rw [insert, habs, handle_resize, if_pos rfl]

lemma insert_spec (s : HashMap K V) (k : K) (v : V)
    (hWF : WF hash_func s) (habs : lookup_val hash_func s k = none) :
    (insert hash_func s k v).1 = true ∧
    WF hash_func (insert hash_func s k v).2 ∧
    (insert hash_func s k v).2._size = s._size + 1 ∧
    lookup_val hash_func (insert hash_func s k v).2 k = some v ∧
    (∀ k', k' ≠ k → lookup_val hash_func (insert hash_func s k v).2 k' =
      lookup_val hash_func s k') ∧
    (entries (insert hash_func s k v).2).Perm (entries s ++ [(k, v)]) ∧
    ((∃ m, s._capacity = 2 ^ m) →
      ∃ m, (insert hash_func s k v).2._capacity = 2 ^ m) ∧
    4 * (insert hash_func s k v).2._size ≤ 3 * (insert hash_func s k v).2._capacity := by
  obtain ⟨hWFp, hszp, hcapp, hpermp, hlkp, hlkp'⟩ :=
    insert_push_spec hash_func s k v hWF habs
  obtain ⟨hWFu, hszu, hpermu, hlku, hpowu⟩ :=
    handle_resize_up_spec hash_func (insert_push hash_func s k v) hWFp
  rw [insert_absent_eq hash_func s k v habs]
  refine ⟨rfl, hWFu, by rw [hszu, hszp], ?_, ?_, hpermu.trans hpermp, ?_, ?_⟩
  · rw [hlku k, hlkp]
  · intro k' hk'
    rw [hlku k', hlkp' k' hk']
  · intro hpow
    apply hpowu
    rw [hcapp]
    exact hpow
  · show 4 * (handle_resize_up hash_func (insert_push hash_func s k v))._size ≤
      3 * (handle_resize_up hash_func (insert_push hash_func s k v))._capacity
    have hload := handle_resize_up_load hash_func (insert_push hash_func s k v)
    rw [load_factor_gt_iff] at hload
    have hcpos := hWFu.2.1
    omega

/-! ### Specification of `erase` (and of `Dictionary::erase`) -/

lemma erase_of_absent (s : HashMap K V) (k : K)
    (habs : lookup_val hash_func s k = none) :
    erase hash_func s k = (false, s) := by
  rw [erase, (removeFirst_eq_none _ _).mpr habs]

lemma dict_erase_of_absent (s : HashMap K V) (k : K)
    (habs : lookup_val hash_func s k = none) :
    dict_erase hash_func s k = .error .InvalidKey := by
  rw [dict_erase, (removeFirst_eq_none _ _).mpr habs]

/-- On every successful `Dictionary::erase`, the result is exactly what
`HashMap::erase` produces (the loop bodies are textually identical). -/
lemma dict_erase_ok (s : HashMap K V) (k : K) (b : Bool) (t : HashMap K V)
    (h : dict_erase hash_func s k = .ok (b, t)) :
    erase hash_func s k = (b, t) := by
  rw [dict_erase] at h
  rw [erase]
  cases hrf : removeFirst k
      (s._map.getD (get_hash_index hash_func s._capacity k) []) with
  | none => rw [hrf] at h; exact absurd h (by simp)
  | some b' =>
      rw [hrf] at h
      simp at h
      simp [h.1, h.2]

lemma erase_spec (s : HashMap K V) (k : K) (v : V)
    (hWF : WF hash_func s) (hfound : lookup_val hash_func s k = some v) :
    (erase hash_func s k).1 = true ∧
    WF hash_func (erase hash_func s k).2 ∧
    (erase hash_func s k).2._size + 1 = s._size ∧
    lookup_val hash_func (erase hash_func s k).2 k = none ∧
    (∀ k', k' ≠ k → lookup_val hash_func (erase hash_func s k).2 k' =
      lookup_val hash_func s k') ∧
    ((∃ m, s._capacity = 2 ^ m) →
      ∃ m, (erase hash_func s k).2._capacity = 2 ^ m) ∧
    ((∃ m, s._capacity = 2 ^ m) → 4 * s._size ≤ 3 * s._capacity →
      4 * (erase hash_func s k).2._size ≤ 3 * (erase hash_func s k).2._capacity) := by
  obtain ⟨hlen, hc, hcoh, hnd, hsz⟩ := hWF
  have hglt : get_hash_index hash_func s._capacity k < s._map.length := by
    rw [hlen]
    exact get_hash_index_lt hash_func s._capacity hc k
  cases hrf : removeFirst k
      (s._map.getD (get_hash_index hash_func s._capacity k) []) with
  | none =>
      rw [removeFirst_eq_none] at hrf
      rw [lookup_val] at hfound
      rw [hfound] at hrf
      exact absurd hrf (by simp)
  | some b =>
      obtain ⟨l₁, w, l₂, hbkt, hl₁, hb⟩ := removeFirst_spec k _ b hrf
      -- the removed entry is the one `findVal` reports
      have hwv : w = v := by
        rw [lookup_val, hbkt, findVal_append, (findVal_eq_none _ _).mpr hl₁] at hfound
        simpa [findVal] using hfound
      rw [hwv] at hbkt
      subst hb
      -- the bucket decomposition inside the whole entry list
      have hdecomp := flatten_decomp s._map _ hglt
      have hgetd : s._map.getD (get_hash_index hash_func s._capacity k) [] =
          s._map[get_hash_index hash_func s._capacity k] :=
        List.getD_eq_getElem s._map [] hglt
      rw [hgetd] at hbkt
      -- keys of the key's bucket are distinct
      have hbsub : s._map[get_hash_index hash_func s._capacity k].Sublist (entries s) := by
        rw [entries, hdecomp]
        exact (List.sublist_append_right _ _).trans (List.sublist_append_left _ _)
      have hbnd : ((s._map[get_hash_index hash_func s._capacity k]).map
          Prod.fst).Nodup := (hbsub.map Prod.fst).nodup hnd
      have hl₂ : ∀ e ∈ l₂, e.1 ≠ k := by
        rw [hbkt] at hbnd
        have h1 : (((k, v) :: l₂).map Prod.fst).Nodup :=
          ((List.sublist_append_right l₁ _).map Prod.fst).nodup hbnd
        simp only [List.map_cons, List.nodup_cons] at h1
        intro e he heq
        exact h1.1 (List.mem_map.mpr ⟨e, he, heq⟩)
      -- the state after the in-bucket erase and `_size--`
      have hXY : (l₁ ++ l₂).Sublist (l₁ ++ (k, v) :: l₂) :=
        (List.sublist_cons_self (k, v) l₂).append_left l₁
      have hmap : (erase_pop hash_func s k (l₁ ++ l₂))._map =
          s._map.set (get_hash_index hash_func s._capacity k) (l₁ ++ l₂) := rfl
      have hmidlen : (erase_pop hash_func s k (l₁ ++ l₂))._map.length = s._capacity := by
        rw [hmap, List.length_set, hlen]
      have hment : entries (erase_pop hash_func s k (l₁ ++ l₂)) =
          (s._map.take (get_hash_index hash_func s._capacity k)).flatten ++ (l₁ ++ l₂) ++
            (s._map.drop (get_hash_index hash_func s._capacity k + 1)).flatten := by
        rw [entries, hmap, flatten_set _ _ hglt]
      have hsubent : (entries (erase_pop hash_func s k (l₁ ++ l₂))).Sublist (entries s) := by
        rw [hment, entries, hdecomp, hbkt]
        exact (hXY.append_left _).append_right _
      have hmsz : s._size = (entries (erase_pop hash_func s k (l₁ ++ l₂))).length + 1 := by
        rw [hment, hsz, entries, hdecomp, hbkt]
        simp
        omega
      have hmidWF : WF hash_func (erase_pop hash_func s k (l₁ ++ l₂)) := by
        refine ⟨hmidlen, hc, ?_, (hsubent.map Prod.fst).nodup hnd, ?_⟩
        · intro i hi e he
          rw [hmidlen] at hi
          by_cases hig : i = get_hash_index hash_func s._capacity k
          · subst hig
            simp only [erase_pop] at he
            rw [List.getElem_set_self (by simp; omega)] at he
            have : e ∈ l₁ ++ (k, v) :: l₂ := by
              rcases List.mem_append.mp he with h1 | h2
              · exact List.mem_append.mpr (Or.inl h1)
              · exact List.mem_append.mpr (Or.inr (List.mem_cons_of_mem _ h2))
            rw [← hbkt] at this
            exact hcoh _ hglt e this
          · simp only [erase_pop] at he
            rw [List.getElem_set_ne (fun h => hig h.symm) (by simp; omega)] at he
            exact hcoh i (by omega) e he
        · show (erase_pop hash_func s k (l₁ ++ l₂))._size = _
          have : (erase_pop hash_func s k (l₁ ++ l₂))._size = s._size - 1 := rfl
          omega
      -- lookups in the popped state
      have hmg : (erase_pop hash_func s k (l₁ ++ l₂))._map.getD
          (get_hash_index hash_func s._capacity k) [] = l₁ ++ l₂ := by
        rw [hmap]
        exact getD_set_self _ _ _ _ hglt
      have hlookk : lookup_val hash_func (erase_pop hash_func s k (l₁ ++ l₂)) k = none := by
        rw [lookup_val]
        have hcap : (erase_pop hash_func s k (l₁ ++ l₂))._capacity = s._capacity := rfl
        rw [hcap, hmg, findVal_append, (findVal_eq_none _ _).mpr hl₁,
          (findVal_eq_none _ _).mpr hl₂]
        rfl
      have hlookk' : ∀ k', k' ≠ k →
          lookup_val hash_func (erase_pop hash_func s k (l₁ ++ l₂)) k' =
            lookup_val hash_func s k' := by
        intro k' hk'
        rw [lookup_val, lookup_val]
        have hcap : (erase_pop hash_func s k (l₁ ++ l₂))._capacity = s._capacity := rfl
        rw [hcap]
        by_cases hgg : get_hash_index hash_func s._capacity k' =
            get_hash_index hash_func s._capacity k
        · rw [hgg, hmg, hgetd, hbkt, findVal_append, findVal_append]
          have hstep : findVal k' ((k, v) :: l₂) = findVal k' l₂ := by
            simp only [findVal]
            rw [if_neg (fun h => hk' h.symm)]
          rw [hstep]
        · rw [hmap, getD_set_ne _ _ _ _ _ (fun h => hgg h.symm)]
      -- now run the shrink loop
      obtain ⟨hWFd, hszd, hpermd, hlookd, hpowd, hboundd⟩ :=
        handle_resize_down_spec hash_func (erase_pop hash_func s k (l₁ ++ l₂)) hmidWF
      have herase : erase hash_func s k =
          (true, handle_resize_down hash_func (erase_pop hash_func s k (l₁ ++ l₂))) := by
        rw [erase, hrf]
        simp [handle_resize]
      rw [herase]
      have hmidsz : (erase_pop hash_func s k (l₁ ++ l₂))._size = s._size - 1 := rfl
      have hs1 : 1 ≤ s._size := by omega
      refine ⟨rfl, hWFd, ?_, ?_, ?_, ?_, ?_⟩
      · show (handle_resize_down hash_func (erase_pop hash_func s k (l₁ ++ l₂)))._size + 1
          = s._size
        rw [hszd, hmidsz]
        omega
      · show lookup_val hash_func
          (handle_resize_down hash_func (erase_pop hash_func s k (l₁ ++ l₂))) k = none
        rw [hlookd k, hlookk]
      · intro k' hk'
        show lookup_val hash_func
          (handle_resize_down hash_func (erase_pop hash_func s k (l₁ ++ l₂))) k' = _
        rw [hlookd k', hlookk' k' hk']
      · intro hpow
        exact hpowd hpow
      · intro hpow hbound
        apply hboundd hpow
        have hcap2 : (erase_pop hash_func s k (l₁ ++ l₂))._capacity = s._capacity := rfl
        rw [hmidsz, hcap2]
        omega

/-! ### Specification of the upsert body shared by `Dictionary::update`
and the two-vector constructor -/

lemma overwrite_cons (key : K) (v : V) (e : K × V) (es : List (K × V)) :
    overwrite_in_bucket key v (e :: es) =
      (if e.1 = key then (if e.2 ≠ v then (e.1, v) else e) else e) ::
        overwrite_in_bucket key v es := by
  rfl

lemma overwrite_fst (key : K) (v : V) (b : List (K × V)) :
    (overwrite_in_bucket key v b).map Prod.fst = b.map Prod.fst := by
  induction b with
  | nil => rfl
  | cons e es ih =>
      rw [overwrite_cons, List.map_cons, List.map_cons, ih]
      by_cases h1 : e.1 = key
      · by_cases h2 : e.2 ≠ v <;> simp [h1, h2]
      · simp [h1]

lemma overwrite_length (key : K) (v : V) (b : List (K × V)) :
    (overwrite_in_bucket key v b).length = b.length := by
  simp [overwrite_in_bucket]

lemma overwrite_of_absent (key : K) (v : V) (b : List (K × V))
    (h : ∀ e ∈ b, e.1 ≠ key) :
    overwrite_in_bucket key v b = b := by
  induction b with
  | nil => rfl
  | cons e es ih =>
      rw [overwrite_cons, if_neg (h e (by simp)),
        ih (fun e' he' => h e' (by simp [he']))]

lemma findVal_overwrite_self (key : K) (v : V) (b : List (K × V)) :
    findVal key (overwrite_in_bucket key v b) = (findVal key b).map (fun _ => v) := by
  induction b with
  | nil => rfl
  | cons e es ih =>
      rw [overwrite_cons]
      by_cases h1 : e.1 = key
      · by_cases h2 : e.2 ≠ v
        · rw [if_pos h1, if_pos h2]
          simp [findVal, h1]
        · rw [if_pos h1, if_neg h2]
          push_neg at h2
          simp [findVal, h1, h2]
      · rw [if_neg h1]
        simp [findVal, h1, ih]

lemma findVal_overwrite_ne (key : K) (v : V) (b : List (K × V)) (k' : K)
    (h : k' ≠ key) :
    findVal k' (overwrite_in_bucket key v b) = findVal k' b := by
  induction b with
  | nil => rfl
  | cons e es ih =>
      rw [overwrite_cons]
      by_cases h1 : e.1 = key
      · have hne : ¬ e.1 = k' := by
          rw [h1]
          exact fun hh => h hh.symm
        have hk : ¬ key = k' := fun hh => h hh.symm
        by_cases h2 : e.2 ≠ v <;> simp [findVal, h1, h2, hne, hk, ih]
      · by_cases h3 : e.1 = k' <;> simp [findVal, h1, h3, h, ih]

lemma overwrite_eq_self_of_nodup (key : K) (v : V) (b : List (K × V))
    (hnd : (b.map Prod.fst).Nodup) (hfv : findVal key b = some v) :
    overwrite_in_bucket key v b = b := by
  induction b with
  | nil => rfl
  | cons e es ih =>
      rw [List.map_cons, List.nodup_cons] at hnd
      rw [overwrite_cons]
      by_cases h1 : e.1 = key
      · have hv : e.2 = v := by
          simpa [findVal, h1] using hfv
        have habs : ∀ e' ∈ es, e'.1 ≠ key := by
          intro e' he' heq
          exact hnd.1 (by rw [← h1] at heq; exact List.mem_map.mpr ⟨e', he', heq⟩)
        rw [if_pos h1, if_neg (by simp [hv]), overwrite_of_absent key v es habs]
      · have hfv' : findVal key es = some v := by
          simpa [findVal, h1] using hfv
        rw [if_neg h1, ih hnd.2 hfv']

/-- The overwrite pass touches neither the table shape nor any lookup for
another key; afterwards the key's stored value (if any) is `v`. -/
lemma update_step_spec (s : HashMap K V) (k : K) (v : V) (hWF : WF hash_func s) :
    WF hash_func (update_step hash_func s k v) ∧
    lookup_val hash_func (update_step hash_func s k v) k = some v ∧
    (∀ k', k' ≠ k → lookup_val hash_func (update_step hash_func s k v) k' =
      lookup_val hash_func s k') ∧
    (update_step hash_func s k v)._size =
      (if (lookup_val hash_func s k).isSome then s._size else s._size + 1) ∧
    ((∃ m, s._capacity = 2 ^ m) →
      ∃ m, (update_step hash_func s k v)._capacity = 2 ^ m) ∧
    (4 * s._size ≤ 3 * s._capacity →
      4 * (update_step hash_func s k v)._size ≤
        3 * (update_step hash_func s k v)._capacity) ∧
    (lookup_val hash_func s k = some v → update_step hash_func s k v = s) := by
  obtain ⟨hlen, hc, hcoh, hnd, hsz⟩ := hWF
  have hglt : get_hash_index hash_func s._capacity k < s._map.length := by
    rw [hlen]
    exact get_hash_index_lt hash_func s._capacity hc k
  have hgetd : s._map.getD (get_hash_index hash_func s._capacity k) [] =
      s._map[get_hash_index hash_func s._capacity k] :=
    List.getD_eq_getElem s._map [] hglt
  cases hlk : lookup_val hash_func s k with
  | none =>
      have habs : ∀ e ∈ s._map.getD (get_hash_index hash_func s._capacity k) [],
          e.1 ≠ k := (findVal_eq_none _ _).mp hlk
      have hov : overwrite_in_bucket k v
          (s._map.getD (get_hash_index hash_func s._capacity k) []) =
          s._map.getD (get_hash_index hash_func s._capacity k) [] :=
        overwrite_of_absent k v _ habs
      have hmid : update_step hash_func s k v = (insert hash_func s k v).2 := by
        rw [update_step, overwrite_bucket_state]
        simp only [hov]
        rw [set_getD_self s._map _ [] hglt]
      obtain ⟨-, hWFi, hszi, hlki, hlki', -, hpowi, hboundi⟩ :=
        insert_spec hash_func s k v ⟨hlen, hc, hcoh, hnd, hsz⟩ hlk
      rw [hmid]
      refine ⟨hWFi, hlki, hlki', ?_, hpowi, fun _ => hboundi, ?_⟩
      · simpa using hszi
      · intro hcontra
        exact absurd hcontra (by simp [hlk])
  | some w =>
      -- the modified bucket array
      set mid : HashMap K V := overwrite_bucket_state hash_func s k v with hmiddef
      have hmapmid : (update_step hash_func s k v) = (insert hash_func mid k v).2 := rfl
      have hmapeq : mid._map = s._map.set (get_hash_index hash_func s._capacity k)
          (overwrite_in_bucket k v
            (s._map.getD (get_hash_index hash_func s._capacity k) [])) := rfl
      have hmidsz : mid._size = s._size := rfl
      have hmidcap : mid._capacity = s._capacity := rfl
      have hmgetd : mid._map.getD (get_hash_index hash_func s._capacity k) [] =
          overwrite_in_bucket k v
            (s._map.getD (get_hash_index hash_func s._capacity k) []) :=
        getD_set_self _ _ _ _ hglt
      have hfvk : findVal k (s._map.getD (get_hash_index hash_func s._capacity k) []) =
          some w := hlk
      have hmlook : lookup_val hash_func mid k = some v := by
        rw [lookup_val, hmidcap, hmgetd, findVal_overwrite_self, hfvk]
        rfl
      have hmlook' : ∀ k', k' ≠ k →
          lookup_val hash_func mid k' = lookup_val hash_func s k' := by
        intro k' hk'
        rw [lookup_val, lookup_val, hmidcap]
        by_cases hgg : get_hash_index hash_func s._capacity k' =
            get_hash_index hash_func s._capacity k
        · rw [hgg, hmgetd, findVal_overwrite_ne k v _ k' hk']
        · rw [hmapeq, getD_set_ne _ _ _ _ _ (fun h => hgg h.symm)]
      -- entry bookkeeping for the overwritten bucket
      have hdecomp := flatten_decomp s._map _ hglt
      have hment : entries mid =
          (s._map.take (get_hash_index hash_func s._capacity k)).flatten ++
            overwrite_in_bucket k v (s._map.getD (get_hash_index hash_func s._capacity k) []) ++
            (s._map.drop (get_hash_index hash_func s._capacity k + 1)).flatten := by
        rw [entries]
        exact flatten_set _ _ hglt _
      have hkeys : (entries mid).map Prod.fst = (entries s).map Prod.fst := by
        rw [hment, entries, hdecomp, hgetd]
        simp only [List.map_append, overwrite_fst, hgetd]
      have hlenent : (entries mid).length = (entries s).length := by
        rw [hment, entries, hdecomp, hgetd]
        simp [overwrite_length, hgetd]
      have hmidWF : WF hash_func mid := by
        refine ⟨?_, hc, ?_, by rw [hkeys]; exact hnd, ?_⟩
        · show mid._map.length = mid._capacity
          rw [hmapeq, hmidcap, List.length_set, hlen]
        · intro i hi e he
          rw [hmapeq, List.length_set] at hi
          simp only [hmapeq] at he
          by_cases hig : i = get_hash_index hash_func s._capacity k
          · subst hig
            rw [List.getElem_set_self (by simpa using hi)] at he
            rw [overwrite_in_bucket] at he
            obtain ⟨e₀, he₀, hfe⟩ := List.mem_map.mp he
            have he₀' : e₀ ∈ s._map[get_hash_index hash_func s._capacity k] := by
              rw [← hgetd]
              exact he₀
            have hfst : e.1 = e₀.1 := by
              rw [← hfe]
              by_cases h1 : e₀.1 = k <;> by_cases h2 : e₀.2 ≠ v <;> simp [h1, h2]
            rw [hmidcap, hfst]
            exact hcoh _ hglt e₀ he₀'
          · rw [List.getElem_set_ne (fun h => hig h.symm) (by simpa using hi)] at he
            rw [hmidcap]
            exact hcoh i (by simpa using hi) e he
        · show mid._size = (entries mid).length
          rw [hmidsz, hlenent, hsz]
      have hfound : (insert hash_func mid k v) = (false, mid) :=
        insert_of_found hash_func mid k v v hmlook
      have hstep : update_step hash_func s k v = mid := by
        rw [hmapmid, hfound]
      rw [hstep]
      refine ⟨hmidWF, hmlook, hmlook', by simpa using hmidsz, ?_, ?_, ?_⟩
      · intro hpow
        rw [hmidcap]
        exact hpow
      · intro hb
        rw [hmidsz, hmidcap]
        exact hb
      -- when the stored value already equals `v`, nothing changes at all
      intro hvv
      have hww : w = v := by
        injection hvv
      subst hww
      have hbnd : ((s._map[get_hash_index hash_func s._capacity k]).map
          Prod.fst).Nodup := by
        have hbsub : s._map[get_hash_index hash_func s._capacity k].Sublist (entries s) := by
          rw [entries, hdecomp]
          exact (List.sublist_append_right _ _).trans (List.sublist_append_left _ _)
        exact (hbsub.map Prod.fst).nodup hnd
      have hov : overwrite_in_bucket k w
          (s._map.getD (get_hash_index hash_func s._capacity k) []) =
          s._map.getD (get_hash_index hash_func s._capacity k) [] := by
        rw [hgetd]
        exact overwrite_eq_self_of_nodup k w _ hbnd (by rw [← hgetd]; exact hlk)
      rw [hmiddef, overwrite_bucket_state]
      simp only [hov]
      rw [set_getD_self s._map _ [] hglt]

/-! ### The invariant holds in every reachable state -/

lemma WF_blank (cap : Nat) (hcap : 0 < cap) :
    WF hash_func
      { _map := List.replicate cap ([] : List (K × V)), _size := 0, _capacity := cap } := by
  refine ⟨by simp, hcap, ?_, ?_, ?_⟩
  · intro i hi e he
    simp at he
  · simp [entries, flatten_replicate_nil]
  · simp [entries, flatten_replicate_nil]

lemma WF_empty : WF hash_func (empty : HashMap K V) :=
  WF_blank hash_func 16 (by omega)

lemma WF_clear (s : HashMap K V) (hWF : WF hash_func s) : WF hash_func (clear s) :=
  WF_blank hash_func s._capacity hWF.2.1

lemma Inv_empty : Inv hash_func (empty : HashMap K V) :=
  ⟨WF_empty hash_func, ⟨4, rfl⟩, by simp [empty]⟩

lemma Inv_clear (s : HashMap K V) (h : Inv hash_func s) : Inv hash_func (clear s) := by
  refine ⟨WF_clear hash_func s h.1, h.2.1, ?_⟩
  simp [clear]

lemma Inv_insert (s : HashMap K V) (k : K) (v : V) (h : Inv hash_func s) :
    Inv hash_func (insert hash_func s k v).2 := by
  cases hlk : lookup_val hash_func s k with
  | some w =>
      rw [insert_of_found hash_func s k v w hlk]
      exact h
  | none =>
      obtain ⟨hWF, hpow, hbound⟩ := h
      obtain ⟨-, hWFi, -, -, -, -, hpowi, hboundi⟩ :=
        insert_spec hash_func s k v hWF hlk
      exact ⟨hWFi, hpowi hpow, hboundi⟩

lemma Inv_erase (s : HashMap K V) (k : K) (h : Inv hash_func s) :
    Inv hash_func (erase hash_func s k).2 := by
  cases hlk : lookup_val hash_func s k with
  | none =>
      rw [erase_of_absent hash_func s k hlk]
      exact h
  | some w =>
      obtain ⟨hWF, hpow, hbound⟩ := h
      obtain ⟨-, hWFe, -, -, -, hpowe, hbounde⟩ :=
        erase_spec hash_func s k w hWF hlk
      exact ⟨hWFe, hpowe hpow, hbounde hpow hbound⟩

lemma Inv_update_step (s : HashMap K V) (k : K) (v : V) (h : Inv hash_func s) :
    Inv hash_func (update_step hash_func s k v) := by
  obtain ⟨hWF, hpow, hbound⟩ := h
  obtain ⟨hWFu, -, -, -, hpowu, hboundu, -⟩ := update_step_spec hash_func s k v hWF
  exact ⟨hWFu, hpowu hpow, hboundu hbound⟩

lemma insert_all_cons (s : HashMap K V) (p : K × V) (ps : List (K × V)) :
    insert_all hash_func s (p :: ps) =
      insert_all hash_func (insert hash_func s p.1 p.2).2 ps := rfl

lemma update_cons (s : HashMap K V) (p : K × V) (ps : List (K × V)) :
    update hash_func s (p :: ps) =
      update hash_func (update_step hash_func s p.1 p.2) ps := rfl

lemma Inv_insert_all (ps : List (K × V)) :
    ∀ s : HashMap K V, Inv hash_func s → Inv hash_func (insert_all hash_func s ps) := by
  induction ps with
  | nil => exact fun s h => h
  | cons p ps ih =>
      intro s h
      rw [insert_all_cons]
      exact ih _ (Inv_insert hash_func s p.1 p.2 h)

lemma Inv_update (ps : List (K × V)) :
    ∀ s : HashMap K V, Inv hash_func s → Inv hash_func (update hash_func s ps) := by
  induction ps with
  | nil => exact fun s h => h
  | cons p ps ih =>
      intro s h
      rw [update_cons]
      exact ih _ (Inv_update_step hash_func s p.1 p.2 h)

lemma Inv_copy (src : HashMap K V) (h : Inv hash_func src) :
    Inv hash_func (copy_construct hash_func src) := by
  apply Inv_insert_all
  refine ⟨WF_blank hash_func src._capacity h.1.2.1, h.2.1, ?_⟩
  simp

lemma Inv_assign (t s : HashMap K V) (ht : Inv hash_func t) :
    Inv hash_func (assign hash_func t s) :=
  Inv_insert_all hash_func _ _ (Inv_clear hash_func t ht)

lemma Inv_index_access (d : V) (s : HashMap K V) (k : K) (h : Inv hash_func s) :
    Inv hash_func (index_access hash_func d s k).2 := by
  cases hat : at_key hash_func s k with
  | ok v =>
      simp [index_access, hat]
      exact h
  | error e =>
      simp [index_access, hat]
      exact Inv_insert hash_func s k d h

lemma Inv_from_vectors (keys : List K) (values : List V) (s : HashMap K V)
    (h : from_vectors hash_func keys values = .ok s) : Inv hash_func s := by
  rw [from_vectors] at h
  split at h
  · cases h
  · injection h with h
    rw [← h]
    exact Inv_update hash_func _ _ (Inv_empty hash_func)

lemma Inv_dict_erase (s : HashMap K V) (k : K) (b : Bool) (t : HashMap K V)
    (h : Inv hash_func s) (hd : dict_erase hash_func s k = .ok (b, t)) :
    Inv hash_func t := by
  have he := dict_erase_ok hash_func s k b t hd
  have h2 := Inv_erase hash_func s k h
  rw [he] at h2
  exact h2

/-- Every table state reachable through the public interface satisfies the
invariant. -/
theorem reachable_inv (s : HashMap K V) (h : Reachable hash_func s) :
    Inv hash_func s := by
  induction h with
  | default_ctor => exact Inv_empty hash_func
  | vector_ctor keys values s h => exact Inv_from_vectors hash_func keys values s h
  | copy_ctor s _ ih => exact Inv_copy hash_func s ih
  | insert_op s k v _ ih => exact Inv_insert hash_func s k v ih
  | erase_op s k _ ih => exact Inv_erase hash_func s k ih
  | clear_op s _ ih => exact Inv_clear hash_func s ih
  | assign_op t s _ _ iht _ => exact Inv_assign hash_func t s iht
  | index_op s k d _ ih => exact Inv_index_access hash_func d s k ih
  | dict_erase_op s k b t _ hd ih => exact Inv_dict_erase hash_func s k b t ih hd
  | update_op s ps _ ih => exact Inv_update hash_func ps s ih

/-! ### Bridges between `at` / `contains_key` and the shared bucket scan -/

lemma contains_key_eq_lookup (s : HashMap K V) (k : K) :
    contains_key hash_func s k = (lookup_val hash_func s k).isSome := rfl

lemma at_key_eq_lookup (s : HashMap K V) (k : K) :
    at_key hash_func s k =
      (match lookup_val hash_func s k with
        | some v => Except.ok v
        | none => Except.error Err.KeyNotFound) := rfl

lemma lookup_of_at_ok (s : HashMap K V) (k : K) (v : V)
    (hv : at_key hash_func s k = .ok v) : lookup_val hash_func s k = some v := by
  rw [at_key_eq_lookup] at hv
  cases hlk : lookup_val hash_func s k with
  | none => rw [hlk] at hv; cases hv
  | some w => rw [hlk] at hv; injection hv with h; rw [h]

/-! ### Claim theorems -/

/-- C9: `at` returns the stored value when the key is present and fails
with `KeyNotFound` when absent; `bucket_size` and `bucket_index` fail with
`KeyNotFound` exactly when the key is absent (each performs the `at`
lookup before using any bucket computation), and on success they return
the key's bucket length resp. bucket index.  None of the three produces a
new table state in the embedding, matching their `const` qualifiers in the
source. -/
theorem claim_c9 (s : HashMap K V) (k : K) :
    (∀ v, lookup_val hash_func s k = some v → at_key hash_func s k = .ok v) ∧
    (contains_key hash_func s k = false ↔
      at_key hash_func s k = .error .KeyNotFound) ∧
    (contains_key hash_func s k = false ↔
      bucket_size hash_func s k = .error .KeyNotFound) ∧
    (contains_key hash_func s k = false ↔
      bucket_index hash_func s k = .error .KeyNotFound) ∧
    (contains_key hash_func s k = true →
      bucket_size hash_func s k =
        .ok (s._map.getD (get_hash_index hash_func s._capacity k) []).length ∧
      bucket_index hash_func s k = .ok (get_hash_index hash_func s._capacity k)) := by
  rw [contains_key_eq_lookup, bucket_size, bucket_index, at_key_eq_lookup]
  cases hlk : lookup_val hash_func s k with
  | none => simp [hlk, at_key_eq_lookup]
  | some v => simp [hlk, at_key_eq_lookup]

/-- Witness for C9 at a concrete table: key 5 present, key 7 absent. -/
theorem claim_c9_witness :
    at_key natHash sample_wf 5 = .ok 50 ∧
    bucket_size natHash sample_wf 7 = .error .KeyNotFound := by
  refine ⟨(claim_c9 natHash sample_wf 5).1 50 (by decide), ?_⟩
  exact ((claim_c9 natHash sample_wf 7).2.2.1).mp (by decide)

/-- C5: inserting on an already-present key `k` (stored value `v`) with any
`v2 ≠ v` returns `false` and leaves the table unchanged — the state is
identical, `size` is unchanged and `at (k)` still yields `v`
(first-insert-wins). -/
theorem claim_c5 (s : HashMap K V) (k : K) (v v2 : V)
    (hv : at_key hash_func s k = .ok v) (hne : v2 ≠ v) :
    insert hash_func s k v2 = (false, s) ∧
    (insert hash_func s k v2).2._size = s._size ∧
    at_key hash_func (insert hash_func s k v2).2 k = .ok v := by
  have hlk : lookup_val hash_func s k = some v := lookup_of_at_ok hash_func s k v hv
  have h1 := insert_of_found hash_func s k v2 v hlk
  exact ⟨h1, by rw [h1], by rw [h1]; exact hv⟩

/-- Witness for C5 at a concrete table. -/
theorem claim_c5_witness :
    insert natHash sample_wf 5 51 = (false, sample_wf) :=
  (claim_c5 natHash sample_wf 5 50 51 (by decide) (by decide)).1

/-- C4: erasing a present key returns `true`, decrements `size` by exactly
one and makes `contains_key` false; erasing an absent key returns `false`
from the base engine with the table unchanged, while `Dictionary::erase`
fails with `InvalidKey`. -/
theorem claim_c4 (s : HashMap K V) (k : K) (hWF : WF hash_func s) :
    (contains_key hash_func s k = true →
      (erase hash_func s k).1 = true ∧
      (erase hash_func s k).2._size + 1 = s._size ∧
      contains_key hash_func (erase hash_func s k).2 k = false) ∧
    (contains_key hash_func s k = false →
      erase hash_func s k = (false, s) ∧
      dict_erase hash_func s k = .error .InvalidKey) := by
  constructor
  · intro hcont
    rw [contains_key_eq_lookup] at hcont
    obtain ⟨v, hv⟩ := Option.isSome_iff_exists.mp hcont
    obtain ⟨h1, -, h3, h4, -, -, -⟩ := erase_spec hash_func s k v hWF hv
    refine ⟨h1, h3, ?_⟩
    rw [contains_key_eq_lookup, h4]
    rfl
  · intro hcont
    rw [contains_key_eq_lookup] at hcont
    have hlk : lookup_val hash_func s k = none := by
      cases hlkc : lookup_val hash_func s k with
      | none => rfl
      | some w => rw [hlkc] at hcont; simp at hcont
    exact ⟨erase_of_absent hash_func s k hlk, dict_erase_of_absent hash_func s k hlk⟩

/-- Witness for C4 at a concrete table and an absent key. -/
theorem claim_c4_witness :
    erase natHash sample_wf 7 = (false, sample_wf) ∧
    dict_erase natHash sample_wf 7 = .error .InvalidKey :=
  (claim_c4 natHash sample_wf 7 (by decide)).2 (by decide)

/-- C8: `Dictionary::update` processes the external sequence once, in
order (it is exactly the fold of the per-pair body over the sequence), and
it never fails (the body is a total function): when the key is present the
stored value is overwritten — a no-op on the whole state when the new
value equals the stored one — and `size` is unchanged; when the key is
absent the pair is inserted fresh and `size` grows by one; entries under
every other key are untouched. -/
theorem claim_c8 (s t : HashMap K V) (ps : List (K × V)) (k : K) (v : V)
    (hWF : WF hash_func t) :
    update hash_func s ps =
      ps.foldl (fun t' p => update_step hash_func t' p.1 p.2) s ∧
    WF hash_func (update_step hash_func t k v) ∧
    at_key hash_func (update_step hash_func t k v) k = .ok v ∧
    (∀ k', k' ≠ k → at_key hash_func (update_step hash_func t k v) k' =
      at_key hash_func t k') ∧
    (contains_key hash_func t k = true →
      (update_step hash_func t k v)._size = t._size) ∧
    (contains_key hash_func t k = false →
      (update_step hash_func t k v)._size = t._size + 1) ∧
    (at_key hash_func t k = .ok v → update_step hash_func t k v = t) := by
  obtain ⟨hWFu, hlku, hlku', hszu, -, -, hnoop⟩ := update_step_spec hash_func t k v hWF
  refine ⟨rfl, hWFu, ?_, ?_, ?_, ?_, ?_⟩
  · rw [at_key_eq_lookup, hlku]
  · intro k' hk'
    rw [at_key_eq_lookup, at_key_eq_lookup, hlku' k' hk']
  · intro hcont
    rw [contains_key_eq_lookup] at hcont
    rw [hszu, if_pos hcont]
  · intro hcont
    rw [contains_key_eq_lookup] at hcont
    rw [hszu, if_neg (by simp [hcont])]
  · intro hat
    exact hnoop (lookup_of_at_ok hash_func t k v hat)

/-- Witness for C8 at a concrete table: overwrite of a present key, with
an untouched neighbour key. -/
theorem claim_c8_witness :
    at_key natHash (update_step natHash sample_wf 5 99) 5 = .ok 99 ∧
    at_key natHash (update_step natHash sample_wf 5 99) 3 =
      at_key natHash sample_wf 3 :=
  ⟨(claim_c8 natHash sample_wf sample_wf [] 5 99 (by decide)).2.2.1,
   (claim_c8 natHash sample_wf sample_wf [] 5 99 (by decide)).2.2.2.1 3 (by decide)⟩

/-! ### Concrete evaluations for the counterexample states -/

lemma sample_one_eq :
    sample_one = ⟨[(0, 1)] :: List.replicate 15 [], 1, 16⟩ := by
  rw [sample_one, insert_absent_eq natHash empty 0 1 (by decide)]
  show handle_resize_up natHash (insert_push natHash empty 0 1) = _
  have h1 : insert_push natHash empty 0 1 =
      (⟨[(0, 1)] :: List.replicate 15 [], 1, 16⟩ : HashMap Nat Nat) := by decide
  rw [h1]
  apply handle_resize_up_eq_self
  rw [load_factor_gt_iff]
  decide

lemma sample_two_eq :
    sample_two = ⟨[(16, 2)] :: List.replicate 15 [], 1, 16⟩ := by
  rw [sample_two, insert_absent_eq natHash empty 16 2 (by decide)]
  show handle_resize_up natHash (insert_push natHash empty 16 2) = _
  have h1 : insert_push natHash empty 16 2 =
      (⟨[(16, 2)] :: List.replicate 15 [], 1, 16⟩ : HashMap Nat Nat) := by decide
  rw [h1]
  apply handle_resize_up_eq_self
  rw [load_factor_gt_iff]
  decide

lemma next_from_all_empty (s : HashMap K V) (i : Nat)
    (h : ∀ j, i ≤ j → j < s._capacity → s._map.getD j [] = []) :
    next_from s i = s._capacity := by
  induction i using next_from.induct s with
  | case1 i hlt hemp ih =>
      rw [next_from, if_pos hlt, if_pos hemp]
      exact ih (fun j hj hjc => h j (by omega) hjc)
  | case2 i hlt hemp =>
      exact absurd (by rw [h i (le_refl i) hlt]; rfl) hemp
  | case3 i hlt =>
      rw [next_from, if_neg hlt]

/-- A table whose buckets 1, 2, … are all empty is traversed as the empty
sequence: `cbegin ()` starts scanning at bucket 1. -/
lemma visited_eq_nil (s : HashMap K V)
    (h : ∀ j, 1 ≤ j → j < s._capacity → s._map.getD j [] = []) :
    visited s = [] := by
  have hnf : next_from s 1 = s._capacity := next_from_all_empty s 1 h
  show traverse_from s (next_from s (0 + 1)) = []
  rw [Nat.zero_add, hnf, traverse_from, if_neg (lt_irrefl _)]

lemma visited_sample_one : visited sample_one = [] := by
  rw [sample_one_eq]
  apply visited_eq_nil
  intro j h1 h16
  obtain ⟨j', rfl⟩ : ∃ j', j = j' + 1 := ⟨j - 1, by omega⟩
  rw [List.getD_cons_succ]
  exact getD_replicate_nil _ _

/-! ### C2 and the iterator claims -/

/-- C2 (counterexample): the claimed invariant
`capacity > 1 ∧ size > 0 → 0.25 ≤ size/capacity` is false on the code: the
reachable state obtained by one `insert` into a freshly constructed table
has capacity 16, size 1 and load factor 1/16 < 0.25. -/
theorem claim_c2_counterexample :
    Reachable natHash sample_one ∧
    1 < sample_one._capacity ∧ 0 < sample_one._size ∧
    get_load_factor sample_one < 1/4 := by
  refine ⟨Reachable.insert_op empty 0 1 Reachable.default_ctor, ?_, ?_, ?_⟩
  · rw [sample_one_eq]
    decide
  · rw [sample_one_eq]
    decide
  · rw [sample_one_eq, load_factor_lt_iff _ (by decide)]
    decide

/-- C2 (amended): for every reachable state, the capacity is a power of
two that is at least 1, and the load factor is at most 0.75; the claimed
lower bound 0.25 does not hold (see the counterexample). -/
theorem claim_c2_amended (s : HashMap K V) (h : Reachable hash_func s) :
    (∃ m, s._capacity = 2 ^ m) ∧ 1 ≤ s._capacity ∧
    get_load_factor s ≤ 3/4 := by
  obtain ⟨hWF, hpow, hbound⟩ := reachable_inv hash_func s h
  refine ⟨hpow, hWF.2.1, ?_⟩
  by_contra hgt
  push_neg at hgt
  have := (load_factor_gt_iff s).mp hgt
  omega

/-- Witness for the amended C2 at the freshly constructed table. -/
theorem claim_c2_amended_witness :
    (∃ m, (empty : HashMap Nat Nat)._capacity = 2 ^ m) ∧
    1 ≤ (empty : HashMap Nat Nat)._capacity ∧
    get_load_factor (empty : HashMap Nat Nat) ≤ 3/4 :=
  claim_c2_amended natHash empty Reachable.default_ctor

/-- C1 (code bug): a full forward traversal does not visit the entries
stored in bucket 0, because `cbegin ()` calls
`get_next_index_with_elements (0)` and that loop starts scanning at index
`0 + 1`.  At the reachable table obtained by inserting `(0, 1)` into a
fresh `HashMap<int, int>` (key 0 hashes to bucket 0), the live entry list
is `[(0, 1)]` with `size` 1, yet the `begin ()`/`end ()` traversal visits
nothing — refuting both the completeness sentence and the
"including bucket 0 itself" sentence of the claim. -/
theorem claim_c1_bug :
    Reachable natHash sample_one ∧
    sample_one._size = 1 ∧
    entries sample_one = [(0, 1)] ∧
    visited sample_one = [] := by
  refine ⟨Reachable.insert_op empty 0 1 Reachable.default_ctor, ?_, ?_,
    visited_sample_one⟩
  · rw [sample_one_eq]
  · rw [sample_one_eq]
    decide

/-- C3 (code bug): the copy constructor iterates the source with the
range-`for` (`begin ()`/`end ()`), which skips bucket 0; copying a table
whose only entry `(0, 1)` lives in bucket 0 yields an empty table — the
copy has size 0 and does not contain key 0, although the source has size 1
and `at (0) = 1` (its capacity is preserved, but not its entries). -/
theorem claim_c3_bug :
    (copy_construct natHash sample_one)._size = 0 ∧
    sample_one._size = 1 ∧
    contains_key natHash (copy_construct natHash sample_one) 0 = false ∧
    at_key natHash sample_one 0 = .ok 1 := by
  have hcopy : copy_construct natHash sample_one =
      { _map := List.replicate 16 [], _size := 0, _capacity := 16 } := by
    rw [copy_construct, visited_sample_one, sample_one_eq]
    rfl
  refine ⟨by rw [hcopy], by rw [sample_one_eq], ?_, ?_⟩
  · rw [hcopy]
    decide
  · rw [sample_one_eq]
    decide

/-- C6 (code bug): `operator==` iterates the left table with the broken
`begin ()`/`end ()` traversal, which skips bucket 0.  The two reachable
single-entry tables `{0 ↦ 1}` and `{16 ↦ 2}` (both entries live in bucket
0) compare equal — and `!=` reports `false` — although the left entry's
key 0 is not present in the right table (`at` fails with `KeyNotFound`),
so the claimed "iff" characterisation of `operator==` fails on the code. -/
theorem claim_c6_bug :
    hm_beq natHash sample_one sample_two = true ∧
    hm_bne natHash sample_one sample_two = false ∧
    (0, 1) ∈ entries sample_one ∧
    at_key natHash sample_two 0 = .error .KeyNotFound := by
  have h1 : hm_beq natHash sample_one sample_two = true := by
    rw [hm_beq, visited_sample_one, sample_one_eq, sample_two_eq]
    decide
  refine ⟨h1, by rw [hm_bne, h1]; rfl, ?_, ?_⟩
  · rw [sample_one_eq]
    decide
  · rw [sample_two_eq]
    decide

/-! ### C10: the duplicate-tolerant two-vector constructor -/

lemma lov_nil (k : K) : last_occurrence_value k ([] : List (K × V)) = none := rfl

lemma lov_cons (k : K) (p : K × V) (ps : List (K × V)) :
    last_occurrence_value k (p :: ps) =
      (last_occurrence_value k ps).or (if p.1 = k then some p.2 else none) := by
  rw [last_occurrence_value, List.reverse_cons, findVal_append, last_occurrence_value]
  rfl

lemma lov_isSome (k : K) (ps : List (K × V)) :
    (last_occurrence_value k ps).isSome = true ↔ k ∈ ps.map Prod.fst := by
  rw [last_occurrence_value, findVal_isSome]
  simp [List.mem_reverse, List.mem_map]

lemma lookup_empty (k : K) : lookup_val hash_func (empty : HashMap K V) k = none := by
  rw [lookup_val, show (empty : HashMap K V)._map = List.replicate 16 [] from rfl,
    getD_replicate_nil]
  rfl

lemma WF_update (ps : List (K × V)) :
    ∀ s, WF hash_func s → WF hash_func (update hash_func s ps) := by
  induction ps with
  | nil => exact fun s h => h
  | cons p ps ih =>
      intro s h
      rw [update_cons]
      exact ih _ (update_step_spec hash_func s p.1 p.2 h).1

/-- The value `update` leaves under key `k` is the last value paired with
`k` in the processed sequence, or the original value when `k` never
occurs. -/
lemma update_lookup (ps : List (K × V)) :
    ∀ s, WF hash_func s → ∀ k,
      lookup_val hash_func (update hash_func s ps) k =
        (last_occurrence_value k ps).or (lookup_val hash_func s k) := by
  induction ps with
  | nil =>
      intro s _ k
      rw [show update hash_func s [] = s from rfl, lov_nil, Option.none_or]
  | cons p ps ih =>
      intro s hWF k
      obtain ⟨hWFu, hlku, hlku', -, -, -, -⟩ := update_step_spec hash_func s p.1 p.2 hWF
      rw [update_cons, ih _ hWFu k, lov_cons]
      by_cases hk : k = p.1
      · subst hk
        rw [hlku, if_pos rfl, Option.or_assoc]
        rfl
      · rw [hlku' k hk, if_neg (fun h => hk h.symm), Option.or_none]

lemma size_eq_card (s : HashMap K V) (hWF : WF hash_func s) :
    s._size = ((entries s).map Prod.fst).toFinset.card := by
  rw [List.toFinset_card_of_nodup hWF.2.2.2.1, List.length_map]
  exact hWF.2.2.2.2

lemma mem_keys_iff (s : HashMap K V) (hWF : WF hash_func s) (k : K) :
    k ∈ (entries s).map Prod.fst ↔ (lookup_val hash_func s k).isSome = true := by
  rw [← lookup_val_eq_entries hash_func s hWF.1 hWF.2.1 hWF.2.2.1 k, findVal_isSome]
  simp [List.mem_map]

/-- C10: constructing a table from two equal-length key/value sequences
that may contain duplicate keys succeeds (no error), and yields one entry
per distinct key: `size` is the number of distinct keys, each present
key's value is the one paired with the key's last occurrence, and keys not
in the sequence are absent. -/
theorem claim_c10 (keys : List K) (values : List V)
    (hlen : keys.length = values.length) :
    ∃ s, from_vectors hash_func keys values = .ok s ∧
      s._size = keys.toFinset.card ∧
      (∀ k v, last_occurrence_value k (keys.zip values) = some v →
        at_key hash_func s k = .ok v) ∧
      (∀ k, k ∉ keys → contains_key hash_func s k = false) := by
  have hWF0 : WF hash_func (update hash_func empty (keys.zip values)) :=
    WF_update hash_func (keys.zip values) empty (WF_empty hash_func)
  have hlk : ∀ k, lookup_val hash_func (update hash_func empty (keys.zip values)) k =
      (last_occurrence_value k (keys.zip values)).or none := by
    intro k
    rw [update_lookup hash_func (keys.zip values) empty (WF_empty hash_func) k,
      lookup_empty]
  refine ⟨update hash_func empty (keys.zip values), ?_, ?_, ?_, ?_⟩
  · rw [from_vectors, if_neg (by simp [hlen])]
  · rw [size_eq_card hash_func _ hWF0]
    have hset : ((entries (update hash_func empty (keys.zip values))).map
        Prod.fst).toFinset = keys.toFinset := by
      ext k
      simp only [List.mem_toFinset]
      rw [mem_keys_iff hash_func _ hWF0 k, hlk k, Option.or_none, lov_isSome,
        List.map_fst_zip keys values (by omega)]
    rw [hset]
  · intro k v hlast
    rw [at_key_eq_lookup, hlk k, Option.or_none, hlast]
  · intro k hk
    rw [contains_key_eq_lookup, hlk k, Option.or_none]
    have hns : ¬ (last_occurrence_value k (keys.zip values)).isSome = true := by
      rw [lov_isSome, List.map_fst_zip keys values (by omega)]
      exact hk
    cases hh : (last_occurrence_value k (keys.zip values)).isSome with
    | false => rfl
    | true => exact absurd hh hns

/-- Witness for C10 on concrete sequences with a duplicate key: keys
`[1, 1, 2]`, values `[10, 20, 30]` give two entries, key 1 holding the
later value 20. -/
theorem claim_c10_witness :
    (([1, 1, 2] : List Nat).length = ([10, 20, 30] : List Nat).length) ∧
    ∃ s, from_vectors natHash [1, 1, 2] [10, 20, 30] = .ok s ∧
      s._size = ([1, 1, 2] : List Nat).toFinset.card ∧
      (∀ k v, last_occurrence_value k ([(1, 10), (1, 20), (2, 30)]) = some v →
        at_key natHash s k = .ok v) ∧
      (∀ k, k ∉ ([1, 1, 2] : List Nat) → contains_key natHash s k = false) :=
  ⟨by decide, claim_c10 natHash [1, 1, 2] [10, 20, 30] (by decide)⟩

/-! ### C7: the 13-distinct-key growth scenario -/

/-- Folding `insert` over fresh, pairwise-distinct keys: every inserted
pair becomes retrievable, other keys are untouched, and `size` grows by
the number of pairs. -/
lemma insert_all_fresh (ps : List (K × V)) :
    ∀ s, WF hash_func s →
      (ps.map Prod.fst).Nodup → (∀ p ∈ ps, lookup_val hash_func s p.1 = none) →
      WF hash_func (insert_all hash_func s ps) ∧
      (insert_all hash_func s ps)._size = s._size + ps.length ∧
      (∀ p ∈ ps, lookup_val hash_func (insert_all hash_func s ps) p.1 = some p.2) ∧
      (∀ k, (∀ p ∈ ps, p.1 ≠ k) →
        lookup_val hash_func (insert_all hash_func s ps) k =
          lookup_val hash_func s k) := by
  induction ps with
  | nil =>
      intro s hWF _ _
      exact ⟨hWF, by simp [insert_all], by simp, fun k _ => rfl⟩
  | cons p ps ih =>
      intro s hWF hnd hfresh
      rw [List.map_cons, List.nodup_cons] at hnd
      have hp : lookup_val hash_func s p.1 = none := hfresh p (by simp)
      obtain ⟨-, hWFi, hszi, hlki, hlki', -, -, -⟩ :=
        insert_spec hash_func s p.1 p.2 hWF hp
      have hfresh' : ∀ q ∈ ps,
          lookup_val hash_func (insert hash_func s p.1 p.2).2 q.1 = none := by
        intro q hq
        have hqp : q.1 ≠ p.1 := by
          intro hh
          exact hnd.1 (hh ▸ List.mem_map.mpr ⟨q, hq, rfl⟩)
        rw [hlki' q.1 hqp]
        exact hfresh q (by simp [hq])
      obtain ⟨ihWF, ihsz, ihlk, ihlk'⟩ := ih _ hWFi hnd.2 hfresh'
      rw [insert_all_cons]
      refine ⟨ihWF, ?_, ?_, ?_⟩
      · rw [ihsz, hszi, List.length_cons]
        omega
      · intro q hq
        rcases List.mem_cons.mp hq with rfl | hq
        · have hnotin : ∀ r ∈ ps, r.1 ≠ q.1 := by
            intro r hr hh
            exact hnd.1 (hh ▸ List.mem_map.mpr ⟨r, hr, rfl⟩)
          rw [ihlk' q.1 hnotin, hlki]
        · exact ihlk q hq
      · intro k hk
        rw [ihlk' k (fun q hq => hk q (by simp [hq])), hlki' k (Ne.symm (hk p (by simp)))]

/-- While the running size stays at most 12, inserts into a capacity-16
table trigger no resize. -/
lemma insert_all_capacity16 (ps : List (K × V)) :
    ∀ s, WF hash_func s →
      (ps.map Prod.fst).Nodup → (∀ p ∈ ps, lookup_val hash_func s p.1 = none) →
      s._capacity = 16 → 4 * (s._size + ps.length) ≤ 48 →
      (insert_all hash_func s ps)._capacity = 16 := by
  induction ps with
  | nil =>
      intro s _ _ _ hcap _
      exact hcap
  | cons p ps ih =>
      intro s hWF hnd hfresh hcap hsz
      rw [List.map_cons, List.nodup_cons] at hnd
      rw [List.length_cons] at hsz
      have hp : lookup_val hash_func s p.1 = none := hfresh p (by simp)
      have hpush : (insert hash_func s p.1 p.2).2 = insert_push hash_func s p.1 p.2 := by
        rw [insert_absent_eq hash_func s p.1 p.2 hp]
        show handle_resize_up hash_func _ = _
        apply handle_resize_up_eq_self
        rw [load_factor_gt_iff]
        rintro ⟨-, h2⟩
        have hs1 : (insert_push hash_func s p.1 p.2)._size = s._size + 1 := rfl
        have hc1 : (insert_push hash_func s p.1 p.2)._capacity = s._capacity := rfl
        rw [hs1, hc1, hcap] at h2
        omega
      obtain ⟨-, hWFi, hszi, -, hlki', -, -, -⟩ :=
        insert_spec hash_func s p.1 p.2 hWF hp
      have hfresh' : ∀ q ∈ ps,
          lookup_val hash_func (insert hash_func s p.1 p.2).2 q.1 = none := by
        intro q hq
        have hqp : q.1 ≠ p.1 := by
          intro hh
          exact hnd.1 (hh ▸ List.mem_map.mpr ⟨q, hq, rfl⟩)
        rw [hlki' q.1 hqp]
        exact hfresh q (by simp [hq])
      rw [insert_all_cons]
      apply ih _ hWFi hnd.2 hfresh'
      · rw [hpush]
        exact hcap
      · rw [hszi]
        omega

/-- C7: inserting 13 distinct keys into a freshly constructed table
(capacity 16): no resize is triggered through the 12th insert (after any
prefix of at most 12 inserts the capacity is still 16, as
12/16 = 0.75 does not exceed the threshold), the 13th insert triggers
exactly one growth rehash to capacity 32, and afterwards all 13 keys are
retrievable via `at` with their unchanged values. -/
theorem claim_c7 (ks : List K) (vs : List V)
    (hk : ks.length = 13) (hv : vs.length = 13) (hnd : ks.Nodup) :
    (∀ n, n ≤ 12 →
      (insert_all hash_func empty ((ks.zip vs).take n))._capacity = 16) ∧
    (insert_all hash_func empty (ks.zip vs))._capacity = 32 ∧
    (insert_all hash_func empty (ks.zip vs))._size = 13 ∧
    (∀ p ∈ ks.zip vs,
      at_key hash_func (insert_all hash_func empty (ks.zip vs)) p.1 = .ok p.2) := by
  have hzlen : (ks.zip vs).length = 13 := by
    rw [List.length_zip, hk, hv]
    decide
  have hmap : (ks.zip vs).map Prod.fst = ks := List.map_fst_zip ks vs (by omega)
  have hndz : ((ks.zip vs).map Prod.fst).Nodup := by
    rw [hmap]
    exact hnd
  have hfreshE : ∀ p ∈ ks.zip vs, lookup_val hash_func (empty : HashMap K V) p.1 = none :=
    fun p _ => lookup_empty hash_func p.1
  have hcap16 : ∀ n, n ≤ 12 →
      (insert_all hash_func empty ((ks.zip vs).take n))._capacity = 16 := by
    intro n hn
    apply insert_all_capacity16 hash_func _ _ (WF_empty hash_func)
    · exact (((List.take_sublist n _).map Prod.fst).nodup hndz)
    · exact fun p hp => hfreshE p ((List.take_sublist n _).subset hp)
    · rfl
    · have h1 : ((ks.zip vs).take n).length ≤ 12 := by
        rw [List.length_take]
        omega
      have h2 : (empty : HashMap K V)._size = 0 := rfl
      omega
  -- the state after the first 12 inserts
  obtain ⟨p13, hp13⟩ : ∃ p, (ks.zip vs).drop 12 = [p] := by
    apply List.length_eq_one.mp
    rw [List.length_drop, hzlen]
  have hsplit : ks.zip vs = (ks.zip vs).take 12 ++ [p13] := by
    rw [← hp13, List.take_append_drop]
  have hnd12 : (((ks.zip vs).take 12).map Prod.fst).Nodup :=
    ((List.take_sublist 12 _).map Prod.fst).nodup hndz
  obtain ⟨hWF12, hsz12, -, hlk12'⟩ :=
    insert_all_fresh hash_func ((ks.zip vs).take 12) empty (WF_empty hash_func) hnd12
      (fun p hp => hfreshE p ((List.take_sublist 12 _).subset hp))
  have hlen12 : ((ks.zip vs).take 12).length = 12 := by
    rw [List.length_take]
    omega
  have hsz12' : (insert_all hash_func empty ((ks.zip vs).take 12))._size = 12 := by
    rw [hsz12, hlen12]
    rfl
  have hcap12 : (insert_all hash_func empty ((ks.zip vs).take 12))._capacity = 16 :=
    hcap16 12 (le_refl 12)
  -- the key of the 13th pair is fresh in that state
  have hfresh13 : lookup_val hash_func
      (insert_all hash_func empty ((ks.zip vs).take 12)) p13.1 = none := by
    have hnotin : ∀ q ∈ (ks.zip vs).take 12, q.1 ≠ p13.1 := by
      have hndsplit : ((((ks.zip vs).take 12) ++ [p13]).map Prod.fst).Nodup := by
        rw [← hsplit]
        exact hndz
      rw [List.map_append, List.nodup_append] at hndsplit
      intro q hq hh
      exact hndsplit.2.2 (List.mem_map.mpr ⟨q, hq, rfl⟩) (by simp [hh])
    rw [hlk12' p13.1 hnotin]
    exact lookup_empty hash_func p13.1
  -- the 13th insert performs exactly one doubling rehash
  set s12 := insert_all hash_func empty ((ks.zip vs).take 12) with hs12def
  have hfinal : insert_all hash_func empty (ks.zip vs) =
      (insert hash_func s12 p13.1 p13.2).2 := by
    rw [hsplit, insert_all, List.foldl_append]
    rfl
  have hpushsz : (insert_push hash_func s12 p13.1 p13.2)._size = 13 := by
    show s12._size + 1 = 13
    rw [hsz12']
  have hpushcap : (insert_push hash_func s12 p13.1 p13.2)._capacity = 16 := by
    show s12._capacity = 16
    exact hcap12
  have honce : (insert hash_func s12 p13.1 p13.2).2 =
      resize_map hash_func (2 * (insert_push hash_func s12 p13.1 p13.2)._capacity)
        (insert_push hash_func s12 p13.1 p13.2) := by
    rw [insert_absent_eq hash_func s12 p13.1 p13.2 hfresh13]
    show handle_resize_up hash_func _ = _
    apply handle_resize_up_once
    · rw [load_factor_gt_iff, hpushsz, hpushcap]
      omega
    · rw [load_factor_gt_iff]
      rintro ⟨-, h2⟩
      have hrs : (resize_map hash_func
          (2 * (insert_push hash_func s12 p13.1 p13.2)._capacity)
          (insert_push hash_func s12 p13.1 p13.2))._size = 13 := hpushsz
      have hrc : (resize_map hash_func
          (2 * (insert_push hash_func s12 p13.1 p13.2)._capacity)
          (insert_push hash_func s12 p13.1 p13.2))._capacity = 32 := by
        show 2 * (insert_push hash_func s12 p13.1 p13.2)._capacity = 32
        rw [hpushcap]
      rw [hrs, hrc] at h2
      omega
  refine ⟨hcap16, ?_, ?_, ?_⟩
  · rw [hfinal, honce]
    show 2 * (insert_push hash_func s12 p13.1 p13.2)._capacity = 32
    rw [hpushcap]
  · obtain ⟨-, hszA, -, -⟩ :=
      insert_all_fresh hash_func (ks.zip vs) empty (WF_empty hash_func) hndz hfreshE
    rw [hszA, hzlen]
    rfl
  · obtain ⟨-, -, hlkA, -⟩ :=
      insert_all_fresh hash_func (ks.zip vs) empty (WF_empty hash_func) hndz hfreshE
    intro p hp
    rw [at_key_eq_lookup, hlkA p hp]

/-- Witness for C7 on 13 concrete distinct integer keys. -/
theorem claim_c7_witness :
    ([0, 1, 2, 3, 4, 5, 6, 7, 8, 9, 10, 11, 12] : List Nat).length = 13 ∧
    (insert_all natHash empty
      (([0, 1, 2, 3, 4, 5, 6, 7, 8, 9, 10, 11, 12] : List Nat).zip
        ([100, 101, 102, 103, 104, 105, 106, 107, 108, 109, 110, 111, 112] :
          List Nat)))._capacity = 32 :=
  ⟨by decide,
   (claim_c7 natHash [0, 1, 2, 3, 4, 5, 6, 7, 8, 9, 10, 11, 12]
      [100, 101, 102, 103, 104, 105, 106, 107, 108, 109, 110, 111, 112]
      (by decide) (by decide) (by decide)).2.1⟩

end HashMap
